import Mathlib

/-!
Verification of the Huffman coding core (`src/btree.rs`): a shallow embedding
of the repository's single source file and proofs of the specification claims
about it.

Modelling conventions:

* Rust `String` is modelled as `List Char`.
* `type Link = Option<Box<Node>>` together with `struct Node { ch, freq, left,
  right }` is modelled by the single inductive `Link`: `Link.none` plays the
  role of `None`, and `Link.node ch freq left right` plays the role of
  `Some(Box(Node { ch, freq, left, right }))`.
* `HashMap<char, V>` is modelled as an association list `List (Char × V)` with
  `mapInsert` / `mapLookup`; iterating the map visits entries in list order
  (first-insertion order).  The Rust `HashMap` iteration order is arbitrary;
  the association list fixes one concrete order, which is the order the
  embedded pipeline feeds to `populate_tree`.
* `i32` frequencies are modelled as `Int` (the claims only involve character
  counts, far below the `i32` range, and no overflow can occur there).
* A Rust panic (`unwrap()` of `None`, `String::remove(0)` of an empty string)
  is modelled by an `Option.none` result, and a non-terminating `while` loop is
  modelled by fuel exhaustion, which also yields `Option.none`.
-/

namespace Huffman

/-- `type Link = Option<Box<Node>>` and `struct Node`, fused into one
inductive: `Link.none` is `None`; `Link.node ch freq left right` is a boxed
`Node` with those four fields. -/
inductive Link where
  | none : Link
  | node (ch : Option Char) (freq : Int) (left : Link) (right : Link) : Link
deriving DecidableEq

/-- `Node::new`: a leaf node carrying a character and its frequency. -/
def Node.new (ch : Char) (freq : Int) : Link :=
  Link.node (Option.some ch) freq Link.none Link.none

/-- The `freq` field of a node.  The working vector of `populate_tree` only
ever holds real nodes (Rust `Vec<Node>`), so the `Link.none` case is junk. -/
def Link.freq : Link → Int
  | Link.none => 0
  | Link.node _ f _ _ => f

/-- `HashMap::insert`, on the association-list model: replace the entry in
place if the key is present, append it otherwise. -/
def mapInsert {α : Type} (k : Char) (v : α) :
    List (Char × α) → List (Char × α)
  | [] => [(k, v)]
  | (k', v') :: rest =>
    if k' = k then (k, v) :: rest else (k', v') :: mapInsert k v rest

/-- `HashMap::get`, on the association-list model. -/
def mapLookup {α : Type} (k : Char) : List (Char × α) → Option α
  | [] => Option.none
  | (k', v') :: rest => if k' = k then Option.some v' else mapLookup k rest

/-- `HuffTree::find_input_freqs`: scan the input, and for each character
insert (count so far + 1), i.e. `*char_map.entry(ch).or_insert(0) + 1`. -/
def find_input_freqs (input : List Char) : List (Char × Int) :=
  input.foldl
    (fun char_map ch => mapInsert ch ((mapLookup ch char_map).getD 0 + 1) char_map)
    []

/-- One insertion step of a stable insertion sort by descending `freq`.  The
new element is placed in front of the first strictly smaller element, so among
equal frequencies it lands after the elements already present. -/
def sortInsert (n : Link) : List Link → List Link
  | [] => [n]
  | m :: ms => if m.freq < n.freq then n :: m :: ms else m :: sortInsert n ms

/-- `char_freqs.sort_by_key(|m| -m.freq)`: Rust's stable sort, ascending in
the key `-freq`, i.e. descending in `freq` with ties kept in list order.  A
stable insertion sort computes the same (unique) stable result. -/
def sortByFreqDesc (l : List Link) : List Link :=
  l.foldl (fun acc n => sortInsert n acc) []

/-- The `while char_freqs.len() > 1` loop of `populate_tree`: pop the two
smallest nodes off the tail of the descending-sorted vector (`right` first,
then `left`), push their parent, and re-sort.  `fuel` bounds the number of
iterations; `populate_tree` passes the list length, which suffices because
every iteration shortens the list by one.  The dead `| _, _` arm corresponds
to the `unwrap()` calls, which cannot fire under the length guard. -/
def mergeLoop : Nat → List Link → List Link
  | 0, char_freqs => char_freqs
  | fuel + 1, char_freqs =>
    if 1 < char_freqs.length then
      match char_freqs.getLast?, char_freqs.dropLast.getLast? with
      | Option.some right, Option.some left =>
          mergeLoop fuel (sortByFreqDesc (char_freqs.dropLast.dropLast ++
            [Link.node Option.none (left.freq + right.freq) left right]))
      | _, _ => char_freqs
    else char_freqs

/-- `HuffTree::populate_tree`: push one leaf per map entry (in map iteration
order), sort descending by frequency, merge until at most one node remains,
and pop the survivor as the head of the tree. -/
def populate_tree (char_map : List (Char × Int)) : Link :=
  let char_freqs := char_map.map (fun kv => Node.new kv.1 kv.2)
  let sorted := sortByFreqDesc char_freqs
  match (mergeLoop sorted.length sorted).getLast? with
  | Option.some n => n
  | Option.none => Link.none

/-- `huffman_map_step`: depth-first traversal accumulating the code string;
at a leaf, insert (char ↦ code).  `curr.ch.unwrap()` on a leaf without a
character would panic, modelled by `Option.none`. -/
def huffman_map_step (curr : Link) (code : List Char)
    (huffman_map : List (Char × List Char)) : Option (List (Char × List Char)) :=
  match curr with
  | Link.none => Option.some huffman_map
  | Link.node ch _ left right =>
    match left, right with
    | Link.none, Link.none =>
      match ch with
      | Option.none => Option.none
      | Option.some c => Option.some (mapInsert c code huffman_map)
    | _, _ =>
      match huffman_map_step left (code ++ ['0']) huffman_map with
      | Option.none => Option.none
      | Option.some m1 => huffman_map_step right (code ++ ['1']) m1

/-- `HuffTree::generate_huffman_map`, as a function of the head link. -/
def generate_huffman_map (head : Link) : Option (List (Char × List Char)) :=
  huffman_map_step head [] []

/-- `HuffTree::encode`: append each character's code, or the empty string when
the character is absent from the map (`entry(ch).or_insert(String::new())`). -/
def encode (input : List Char) (huffman_map : List (Char × List Char)) :
    List Char :=
  input.foldl
    (fun encoded_str ch => encoded_str ++ ((mapLookup ch huffman_map).getD []))
    []

/-- `decode_step`: walk from `curr` consuming one leading bit per internal
node; at a leaf, append its character.  `encoded_str.remove(0)` on an empty
string panics, and `ch.unwrap()` on a bare leaf without a character panics;
both are modelled by `Option.none`.  Any bit other than `'0'` walks right. -/
def decode_step (curr : Link) (encoded_str : List Char) (decoded_str : List Char) :
    Option (List Char × List Char) :=
  match curr with
  | Link.none => Option.some (encoded_str, decoded_str)
  | Link.node ch _ left right =>
    match left, right with
    | Link.none, Link.none =>
      match ch with
      | Option.none => Option.none
      | Option.some c => Option.some (encoded_str, decoded_str ++ [c])
    | _, _ =>
      match encoded_str with
      | [] => Option.none
      | b :: rest =>
        if b = '0' then decode_step left rest decoded_str
        else decode_step right rest decoded_str

/-- The `while !encoded_str_cpy.is_empty()` loop of `decode`.  `fuel` bounds
the number of iterations; exhausting it models a loop that never empties the
string (which happens exactly when the head is `Link.none` or a bare leaf, in
which case the Rust loop runs forever). -/
def decodeLoop (head : Link) : Nat → List Char → List Char → Option (List Char)
  | 0, encoded_str, decoded_str =>
    if encoded_str.isEmpty then Option.some decoded_str else Option.none
  | fuel + 1, encoded_str, decoded_str =>
    if encoded_str.isEmpty then Option.some decoded_str
    else
      match decode_step head encoded_str decoded_str with
      | Option.none => Option.none
      | Option.some (e', d') => decodeLoop head fuel e' d'

/-- `HuffTree::decode`.  A tree whose head is an internal node consumes at
least one bit per iteration, so `length + 1` units of fuel never run out on
such trees; on a `none` or bare-leaf head with a non-empty string the Rust
loop diverges and the model returns `Option.none`. -/
def decode (head : Link) (encoded_str : List Char) : Option (List Char) :=
  decodeLoop head (encoded_str.length + 1) encoded_str []

/-- `struct HuffTree { head: Link }`. -/
structure HuffTree where
  head : Link
deriving DecidableEq

/-- `HuffTree::generate_huffman_map` as the `&mut self` method it is in Rust:
it returns the computed map together with the state of `self` after the call.
The body only ever reads `self.head` (it passes `&self.head` to
`huffman_map_step`), so the post-state is the pre-state. -/
def HuffTree.generate_huffman_map_mut (t : HuffTree) :
    Option (List (Char × List Char)) × HuffTree :=
  (huffman_map_step t.head [] [], t)

/-! Specification-level definitions used to state the claims. -/

/-- The sum of the `freq` fields over the leaf nodes of a tree, where a leaf
is a node with both children absent (the criterion used throughout the Rust
code). -/
def sumLeafWeights : Link → Int
  | Link.none => 0
  | Link.node _ f left right =>
    match left, right with
    | Link.none, Link.none => f
    | _, _ => sumLeafWeights left + sumLeafWeights right

/-- The `freq` field of the root node (0 for an absent tree). -/
def rootWeight : Link → Int
  | Link.none => 0
  | Link.node _ f _ _ => f

/-- Every internal node's weight is the sum of the leaf weights below it. -/
def weightInv : Link → Prop
  | Link.none => True
  | Link.node _ f left right =>
    match left, right with
    | Link.none, Link.none => True
    | _, _ => f = sumLeafWeights left + sumLeafWeights right ∧
        weightInv left ∧ weightInv right

/-- The structural invariant of spec §3: every node either has both children
absent and a symbol present (leaf), or both children present and no symbol
(internal); no node has exactly one child. -/
def structuralInv : Link → Prop
  | Link.none => True
  | Link.node ch _ left right =>
    ((left = Link.none ∧ right = Link.none ∧ ch.isSome = true) ∨
     (left ≠ Link.none ∧ right ≠ Link.none ∧ ch = Option.none)) ∧
    structuralInv left ∧ structuralInv right

/-- The characters sitting at the leaves of a tree, left to right. -/
def leafChars : Link → List Char
  | Link.none => []
  | Link.node ch _ left right =>
    match left, right with
    | Link.none, Link.none => ch.toList
    | _, _ => leafChars left ++ leafChars right

/-- The (character, code) pairs that `huffman_map_step` discovers below a
node, given the code accumulated so far: at a leaf the accumulated code, and
at any other node the entries of the children with `'0'` respectively `'1'`
appended. -/
def leafEntries : Link → List Char → List (Char × List Char)
  | Link.none, _ => []
  | Link.node ch _ left right, code =>
    match left, right with
    | Link.none, Link.none =>
      match ch with
      | Option.none => []
      | Option.some c => [(c, code)]
    | _, _ =>
      leafEntries left (code ++ ['0']) ++ leafEntries right (code ++ ['1'])

/-- The sum of the counts stored in a frequency map. -/
def sumValues (m : List (Char × Int)) : Int :=
  (m.map Prod.snd).sum

/-- The weights sitting at the leaves of a tree, left to right (a leaf is a
node with both children absent, as everywhere in the code). -/
def leafWeights : Link → List Int
  | Link.none => []
  | Link.node _ f left right =>
    match left, right with
    | Link.none, Link.none => [f]
    | _, _ => leafWeights left ++ leafWeights right

/-- The weighted external path length of a tree: the sum over all leaves of
(leaf weight × leaf depth), written in its standard recursive form (each
internal node contributes the total leaf weight below it). -/
def cost : Link → Int
  | Link.none => 0
  | Link.node _ _ left right =>
    match left, right with
    | Link.none, Link.none => 0
    | _, _ => cost left + cost right + sumLeafWeights left + sumLeafWeights right

/-- The subtree of `t` at path `p` (`false` = left, `true` = right). -/
def getSub : Link → List Bool → Option Link
  | t, [] => Option.some t
  | Link.none, _ :: _ => Option.none
  | Link.node _ _ left right, b :: p => getSub (if b then right else left) p

/-- Replace the subtree of `t` at path `p` by `s`. -/
def setSub : Link → List Bool → Link → Link
  | _, [], s => s
  | Link.none, _ :: _, _ => Link.none
  | Link.node ch f left right, b :: p, s =>
    if b then Link.node ch f left (setSub right p s)
    else Link.node ch f (setSub left p s) right

/-- Every leaf of the tree carries a character together with that character's
entry in the given frequency map. -/
def leafFreqOk (m : List (Char × Int)) : Link → Prop
  | Link.none => True
  | Link.node ch f left right =>
    match left, right with
    | Link.none, Link.none => ∃ c, ch = Option.some c ∧ (c, f) ∈ m
    | _, _ => leafFreqOk m left ∧ leafFreqOk m right

/-- The working vector is sorted by descending frequency. -/
def SortedDesc (l : List Link) : Prop :=
  List.Pairwise (fun x y => Link.freq y ≤ Link.freq x) l

/-- The (path, weight) enumeration of the leaves of a tree. -/
def leafPathsW : Link → List (List Bool × Int)
  | Link.none => []
  | Link.node _ f left right =>
    match left, right with
    | Link.none, Link.none => [([], f)]
    | _, _ =>
      (leafPathsW left).map (fun e => (false :: e.1, e.2)) ++
      (leafPathsW right).map (fun e => (true :: e.1, e.2))

/-! Lemmas about the association-list operations. -/

theorem mapLookup_mapInsert_self {α : Type} (k : Char) (v : α) (m : List (Char × α)) :
    mapLookup k (mapInsert k v m) = Option.some v := by
  induction m with
  | nil => simp [mapInsert, mapLookup]
  | cons hd tl ih =>
    obtain ⟨k', v'⟩ := hd
    by_cases h : k' = k
    · simp [mapInsert, mapLookup, h]
    · simp [mapInsert, mapLookup, h, ih]

theorem mapLookup_mapInsert_ne {α : Type} (k c : Char) (hne : c ≠ k) (v : α)
    (m : List (Char × α)) :
    mapLookup c (mapInsert k v m) = mapLookup c m := by
  have hkc : ¬(k = c) := fun h => hne h.symm
  induction m with
  | nil => simp [mapInsert, mapLookup, hkc]
  | cons hd tl ih =>
    obtain ⟨k', v'⟩ := hd
    by_cases h : k' = k
    · subst h
      simp [mapInsert, mapLookup, hkc]
    · by_cases h2 : k' = c <;> simp [mapInsert, mapLookup, h, h2, ih, hkc, hne]

theorem mem_map_fst_mapInsert {α : Type} (k c : Char) (v : α) (m : List (Char × α)) :
    c ∈ (mapInsert k v m).map Prod.fst ↔ c = k ∨ c ∈ m.map Prod.fst := by
  induction m with
  | nil => simp [mapInsert]
  | cons hd tl ih =>
    obtain ⟨k', v'⟩ := hd
    by_cases h : k' = k
    · subst h
      simp [mapInsert]
    · simp [mapInsert, h, ih]
      tauto

theorem nodup_map_fst_mapInsert {α : Type} (k : Char) (v : α) (m : List (Char × α))
    (h : (m.map Prod.fst).Nodup) : ((mapInsert k v m).map Prod.fst).Nodup := by
  induction m with
  | nil => simp [mapInsert]
  | cons hd tl ih =>
    obtain ⟨k', v'⟩ := hd
    simp only [List.map_cons, List.nodup_cons] at h
    by_cases hk : k' = k
    · subst hk
      simpa [mapInsert] using h
    · simp only [mapInsert, if_neg hk, List.map_cons, List.nodup_cons,
        mem_map_fst_mapInsert]
      exact ⟨fun h' => h'.elim hk h.1, ih h.2⟩

theorem mapLookup_eq_none {α : Type} (c : Char) (m : List (Char × α)) :
    mapLookup c m = Option.none ↔ c ∉ m.map Prod.fst := by
  induction m with
  | nil => simp [mapLookup]
  | cons hd tl ih =>
    obtain ⟨k', v'⟩ := hd
    by_cases h : k' = c
    · subst h
      simp [mapLookup]
    · simp only [mapLookup, if_neg h, ih, List.map_cons, List.mem_cons]
      constructor
      · intro h1 h2
        exact h2.elim (fun h3 => h h3.symm) h1
      · intro h1 h2
        exact h1 (Or.inr h2)

theorem mapLookup_of_mem_nodup {α : Type} (c : Char) (v : α) (m : List (Char × α))
    (hnd : (m.map Prod.fst).Nodup) (hm : (c, v) ∈ m) :
    mapLookup c m = Option.some v := by
  induction m with
  | nil => simp at hm
  | cons hd tl ih =>
    obtain ⟨k', v'⟩ := hd
    simp only [List.map_cons, List.nodup_cons] at hnd
    rcases List.mem_cons.mp hm with hm1 | hm1
    · have h1 : k' = c := (congrArg Prod.fst hm1).symm
      have h2 : v' = v := (congrArg Prod.snd hm1).symm
      simp [mapLookup, h1, h2]
    · have hne : k' ≠ c := by
        intro he
        subst he
        exact hnd.1 (by simpa using List.mem_map_of_mem Prod.fst hm1)
      simp only [mapLookup, if_neg hne]
      exact ih hnd.2 hm1

/-! The frequency-counting fold of `find_input_freqs`. -/

theorem find_input_freqs_fold (l : List Char) :
    ∀ m : List (Char × Int), (m.map Prod.fst).Nodup →
      (((l.foldl (fun char_map ch =>
          mapInsert ch ((mapLookup ch char_map).getD 0 + 1) char_map) m).map
            Prod.fst).Nodup) ∧
      ∀ c : Char,
        mapLookup c (l.foldl (fun char_map ch =>
          mapInsert ch ((mapLookup ch char_map).getD 0 + 1) char_map) m) =
        if mapLookup c m = Option.none ∧ l.count c = 0 then Option.none
        else Option.some ((mapLookup c m).getD 0 + l.count c) := by
  induction l with
  | nil =>
    intro m hnd
    refine ⟨hnd, fun c => ?_⟩
    cases h : mapLookup c m with
    | none => simp [h]
    | some v => simp [h]
  | cons ch t ih =>
    intro m hnd
    simp only [List.foldl_cons]
    obtain ⟨ihnd, ihlook⟩ := ih (mapInsert ch ((mapLookup ch m).getD 0 + 1) m)
      (nodup_map_fst_mapInsert _ _ _ hnd)
    refine ⟨ihnd, fun c => ?_⟩
    rw [ihlook c]
    by_cases hc : c = ch
    · subst hc
      rw [mapLookup_mapInsert_self]
      cases h : mapLookup c m with
      | none =>
        simp [h, List.count_cons]
        ring
      | some v =>
        simp [h, List.count_cons]
        ring
    · rw [mapLookup_mapInsert_ne ch c hc]
      simp [List.count_cons, hc]

theorem find_input_freqs_nodup (input : List Char) :
    ((find_input_freqs input).map Prod.fst).Nodup :=
  (find_input_freqs_fold input [] (by simp)).1

theorem find_input_freqs_lookup (input : List Char) (c : Char) :
    mapLookup c (find_input_freqs input) =
      if input.count c = 0 then Option.none
      else Option.some (input.count c : Int) := by
  obtain ⟨_, hlook⟩ := find_input_freqs_fold input [] (by simp)
  have h := hlook c
  simp only [mapLookup] at h
  rw [show find_input_freqs input = input.foldl (fun char_map ch =>
    mapInsert ch ((mapLookup ch char_map).getD 0 + 1) char_map) [] from rfl]
  rw [h]
  by_cases h0 : input.count c = 0 <;> simp [h0]

theorem find_input_freqs_mem (input : List Char) (c : Char) :
    c ∈ (find_input_freqs input).map Prod.fst ↔ c ∈ input := by
  rw [← not_iff_not, ← mapLookup_eq_none, find_input_freqs_lookup input c,
    ← List.count_eq_zero]
  by_cases h0 : input.count c = 0 <;> simp [h0]

theorem find_input_freqs_ne_nil (input : List Char) (h : input ≠ []) :
    find_input_freqs input ≠ [] := by
  obtain ⟨c, t, rfl⟩ := List.exists_cons_of_ne_nil h
  intro h0
  have hl := find_input_freqs_lookup (c :: t) c
  rw [h0] at hl
  have hc : ¬((c :: t).count c = 0) := by simp [List.count_cons]
  rw [if_neg hc] at hl
  simp [mapLookup] at hl

/-- C7: `find_input_freqs` returns a map with exactly one entry per distinct
character of the input string (its key set is exactly the set of characters
occurring in the input, without duplicates), the value of each entry being
that character's number of occurrences; the empty string yields the empty
map. -/
theorem find_input_freqs_spec (input : List Char) :
    ((find_input_freqs input).map Prod.fst).Nodup ∧
    (∀ c : Char, mapLookup c (find_input_freqs input) =
      if input.count c = 0 then Option.none
      else Option.some (input.count c : Int)) ∧
    (∀ c : Char, c ∈ (find_input_freqs input).map Prod.fst ↔ c ∈ input) ∧
    find_input_freqs ([] : List Char) = [] :=
  ⟨find_input_freqs_nodup input, find_input_freqs_lookup input,
    find_input_freqs_mem input, rfl⟩

/-! Lemmas about `sumValues`. -/

theorem sumValues_mapInsert (k : Char) (v : Int) (m : List (Char × Int)) :
    sumValues (mapInsert k v m) = sumValues m + v - (mapLookup k m).getD 0 := by
  induction m with
  | nil => simp [mapInsert, sumValues, mapLookup]
  | cons hd tl ih =>
    obtain ⟨k', v'⟩ := hd
    by_cases h : k' = k
    · subst h
      simp [mapInsert, sumValues, mapLookup]
      ring
    · simp only [mapInsert, if_neg h, mapLookup, sumValues, List.map_cons,
        List.sum_cons] at ih ⊢
      rw [ih]
      ring

theorem sumValues_find_input_freqs (input : List Char) :
    sumValues (find_input_freqs input) = (input.length : Int) := by
  suffices key : ∀ m : List (Char × Int),
      sumValues (input.foldl (fun char_map ch =>
        mapInsert ch ((mapLookup ch char_map).getD 0 + 1) char_map) m) =
      sumValues m + input.length by
    have h := key []
    simpa [sumValues, find_input_freqs] using h
  induction input with
  | nil => intro m; simp
  | cons ch t ih =>
    intro m
    simp only [List.foldl_cons, List.length_cons]
    rw [ih, sumValues_mapInsert]
    push_cast
    ring

/-! Lemmas about the stable sort. -/

theorem sortInsert_perm (n : Link) (l : List Link) :
    List.Perm (sortInsert n l) (n :: l) := by
  induction l with
  | nil => exact List.Perm.refl _
  | cons m ms ih =>
    by_cases h : m.freq < n.freq
    · simp [sortInsert, h]
    · simp only [sortInsert, if_neg h]
      exact (ih.cons m).trans (List.Perm.swap n m ms)

theorem sortByFreqDesc_perm (l : List Link) : List.Perm (sortByFreqDesc l) l := by
  suffices key : ∀ (l acc : List Link),
      List.Perm (l.foldl (fun acc n => sortInsert n acc) acc) (acc ++ l) by
    simpa using key l []
  intro l
  induction l with
  | nil => intro acc; simp
  | cons n t ih =>
    intro acc
    simp only [List.foldl_cons]
    refine ((ih (sortInsert n acc)).trans ?_)
    refine (((sortInsert_perm n acc).append_right t).trans ?_)
    exact (List.perm_middle).symm

theorem sortByFreqDesc_length (l : List Link) :
    (sortByFreqDesc l).length = l.length :=
  (sortByFreqDesc_perm l).length_eq

/-- An outer permutation of a list of lists permutes the flattening. -/
theorem flatten_perm_of_perm {α : Type} {l₁ l₂ : List (List α)}
    (h : List.Perm l₁ l₂) : List.Perm l₁.flatten l₂.flatten := by
  induction h with
  | nil => exact List.Perm.refl _
  | cons x _ ih => simpa using ih.append_left x
  | swap x y l =>
    simp only [List.flatten_cons, ← List.append_assoc]
    exact (List.perm_append_comm).append_right _
  | trans _ _ ih1 ih2 => exact ih1.trans ih2

/-! Lemmas about the merge loop of `populate_tree`. -/

theorem mergeLoop_of_length_le_one (fuel : Nat) (l : List Link)
    (h : l.length ≤ 1) : mergeLoop fuel l = l := by
  cases fuel with
  | zero => rfl
  | succ fuel => simp [mergeLoop, Nat.not_lt.mpr h]

theorem mergeLoop_step (fuel : Nat) (l : List Link) (h : 1 < l.length) :
    ∃ A left right, l = A ++ [left, right] ∧
      mergeLoop (fuel + 1) l =
        mergeLoop fuel (sortByFreqDesc (A ++
          [Link.node Option.none (Link.freq left + Link.freq right) left right])) := by
  have hne : l ≠ [] := by
    intro h0
    subst h0
    simp at h
  have hlen : l.dropLast.length = l.length - 1 := List.length_dropLast l
  have hne2 : l.dropLast ≠ [] := by
    intro h0
    rw [h0] at hlen
    simp at hlen
    omega
  refine ⟨l.dropLast.dropLast, l.dropLast.getLast hne2, l.getLast hne, ?_, ?_⟩
  · conv_lhs => rw [← List.dropLast_append_getLast hne]
    conv_lhs => rw [← List.dropLast_append_getLast hne2]
    simp
  · simp only [mergeLoop, if_pos h, List.getLast?_eq_getLast_of_ne_nil hne,
      List.getLast?_eq_getLast_of_ne_nil hne2]

theorem mergeLoop_length (fuel : Nat) : ∀ l : List Link, 0 < l.length →
    l.length ≤ fuel + 1 → (mergeLoop fuel l).length = 1 := by
  induction fuel with
  | zero =>
    intro l h1 h2
    simp only [mergeLoop]
    omega
  | succ fuel ih =>
    intro l h1 h2
    by_cases h : 1 < l.length
    · obtain ⟨A, left, right, hdec, hstep⟩ := mergeLoop_step fuel l h
      have hA : l.length = A.length + 2 := by simp [hdec]
      rw [hstep]
      apply ih
      · simp [sortByFreqDesc_length]
      · rw [sortByFreqDesc_length]
        simp only [List.length_append, List.length_cons, List.length_nil]
        omega
    · rw [mergeLoop_of_length_le_one _ _ (by omega)]
      omega

theorem mergeLoop_forall (P : Link → Prop)
    (hP : ∀ a b : Link, P a → P b →
      P (Link.node Option.none (Link.freq a + Link.freq b) a b))
    (fuel : Nat) : ∀ l : List Link, (∀ x ∈ l, P x) →
      ∀ x ∈ mergeLoop fuel l, P x := by
  induction fuel with
  | zero => intro l hl; exact hl
  | succ fuel ih =>
    intro l hl
    by_cases h : 1 < l.length
    · obtain ⟨A, left, right, hdec, hstep⟩ := mergeLoop_step fuel l h
      rw [hstep]
      apply ih
      intro x hx
      have hx' := (sortByFreqDesc_perm _).mem_iff.mp hx
      rcases List.mem_append.mp hx' with hx' | hx'
      · exact hl x (by rw [hdec]; exact List.mem_append.mpr (Or.inl hx'))
      · have hx'' : x = Link.node Option.none (Link.freq left + Link.freq right)
            left right := by simpa using hx'
        subst hx''
        refine hP left right ?_ ?_
        · exact hl left (by rw [hdec]; simp)
        · exact hl right (by rw [hdec]; simp)
    · rw [mergeLoop_of_length_le_one _ _ (by omega)]
      exact hl

theorem sumLeafWeights_parent (och : Option Char) (left right : Link) :
    sumLeafWeights (Link.node och (Link.freq left + Link.freq right) left right) =
      sumLeafWeights left + sumLeafWeights right := by
  cases left <;> cases right <;> simp [sumLeafWeights, Link.freq]

theorem leafChars_parent (w : Int) (left right : Link) :
    leafChars (Link.node Option.none w left right) =
      leafChars left ++ leafChars right := by
  cases left <;> cases right <;> simp [leafChars, Option.toList]

theorem mergeLoop_measures (fuel : Nat) : ∀ l : List Link,
    ((mergeLoop fuel l).map sumLeafWeights).sum = (l.map sumLeafWeights).sum ∧
    List.Perm ((mergeLoop fuel l).map leafChars).flatten
      (l.map leafChars).flatten := by
  induction fuel with
  | zero => intro l; exact ⟨rfl, List.Perm.refl _⟩
  | succ fuel ih =>
    intro l
    by_cases h : 1 < l.length
    · obtain ⟨A, left, right, hdec, hstep⟩ := mergeLoop_step fuel l h
      rw [hstep]
      obtain ⟨ihsum, ihperm⟩ := ih (sortByFreqDesc (A ++
        [Link.node Option.none (Link.freq left + Link.freq right) left right]))
      constructor
      · rw [ihsum, ((sortByFreqDesc_perm _).map sumLeafWeights).sum_eq, hdec]
        simp [sumLeafWeights_parent]
      · refine ihperm.trans ?_
        refine (flatten_perm_of_perm ((sortByFreqDesc_perm _).map leafChars)).trans ?_
        rw [hdec]
        simp [leafChars_parent]
    · rw [mergeLoop_of_length_le_one _ _ (by omega)]
      exact ⟨rfl, List.Perm.refl _⟩

theorem mergeLoop_internal (fuel : Nat) : ∀ l : List Link, 2 ≤ l.length →
    l.length ≤ fuel + 1 → (∀ x ∈ l, x ≠ Link.none) →
    ∃ f a b, mergeLoop fuel l = [Link.node Option.none f a b] ∧
      a ≠ Link.none ∧ b ≠ Link.none := by
  induction fuel with
  | zero =>
    intro l h1 h2
    omega
  | succ fuel ih =>
    intro l h1 h2 hne
    have h : 1 < l.length := h1
    obtain ⟨A, left, right, hdec, hstep⟩ := mergeLoop_step fuel l h
    have hA : l.length = A.length + 2 := by simp [hdec]
    rw [hstep]
    by_cases hA0 : A = []
    · subst hA0
      have : sortByFreqDesc ([] ++
          [Link.node Option.none (Link.freq left + Link.freq right) left right]) =
          [Link.node Option.none (Link.freq left + Link.freq right) left right] := by
        simp [sortByFreqDesc, sortInsert]
      rw [this, mergeLoop_of_length_le_one _ _ (by simp)]
      refine ⟨_, left, right, rfl, ?_, ?_⟩
      · exact hne left (by rw [hdec]; simp)
      · exact hne right (by rw [hdec]; simp)
    · apply ih
      · rw [sortByFreqDesc_length]
        simp only [List.length_append, List.length_cons, List.length_nil]
        have : A.length ≠ 0 := fun h0 => hA0 (List.length_eq_zero.mp h0)
        omega
      · rw [sortByFreqDesc_length]
        simp only [List.length_append, List.length_cons, List.length_nil]
        omega
      · intro x hx
        have hx' := (sortByFreqDesc_perm _).mem_iff.mp hx
        rcases List.mem_append.mp hx' with hx' | hx'
        · exact hne x (by rw [hdec]; exact List.mem_append.mpr (Or.inl hx'))
        · have hx'' : x = Link.node Option.none (Link.freq left + Link.freq right)
              left right := by simpa using hx'
          subst hx''
          intro h0
          exact Link.noConfusion h0

/-! Lemmas about `populate_tree` itself. -/

theorem populate_tree_empty : populate_tree [] = Link.none := rfl

theorem rootWeight_eq_freq (t : Link) : rootWeight t = Link.freq t := by
  cases t <;> rfl

theorem populate_tree_run (char_map : List (Char × Int)) (h : char_map ≠ []) :
    mergeLoop (sortByFreqDesc (char_map.map (fun kv => Node.new kv.1 kv.2))).length
        (sortByFreqDesc (char_map.map (fun kv => Node.new kv.1 kv.2))) =
      [populate_tree char_map] := by
  have hlen : (sortByFreqDesc (char_map.map (fun kv => Node.new kv.1 kv.2))).length =
      char_map.length := by
    rw [sortByFreqDesc_length, List.length_map]
  have h1 : 0 < (sortByFreqDesc (char_map.map (fun kv => Node.new kv.1 kv.2))).length := by
    rw [hlen]
    exact List.length_pos.mpr h
  have h2 := mergeLoop_length
    (sortByFreqDesc (char_map.map (fun kv => Node.new kv.1 kv.2))).length
    (sortByFreqDesc (char_map.map (fun kv => Node.new kv.1 kv.2))) h1
    (Nat.le_succ _)
  obtain ⟨t, ht⟩ := List.length_eq_one.mp h2
  rw [ht]
  have hpt : populate_tree char_map = t := by
    simp only [populate_tree]
    rw [ht]
    rfl
  rw [hpt]

theorem populate_tree_inv (char_map : List (Char × Int)) :
    structuralInv (populate_tree char_map) := by
  by_cases h : char_map = []
  · subst h
    rw [populate_tree_empty]
    trivial
  · have hrun := populate_tree_run char_map h
    have hall := mergeLoop_forall (fun x => structuralInv x ∧ x ≠ Link.none)
      (fun a b ha hb =>
        ⟨⟨Or.inr ⟨ha.2, hb.2, rfl⟩, ha.1, hb.1⟩, fun h0 => Link.noConfusion h0⟩)
      (sortByFreqDesc (char_map.map (fun kv => Node.new kv.1 kv.2))).length
      (sortByFreqDesc (char_map.map (fun kv => Node.new kv.1 kv.2)))
      ?_ (populate_tree char_map) (by rw [hrun]; simp)
    · exact hall.1
    · intro x hx
      have hx' := (sortByFreqDesc_perm _).mem_iff.mp hx
      obtain ⟨kv, _, rfl⟩ := List.mem_map.mp hx'
      refine ⟨⟨Or.inl ⟨rfl, rfl, rfl⟩, trivial, trivial⟩, ?_⟩
      intro h0
      exact Link.noConfusion h0

/-- C8: every node of a tree produced by `populate_tree`, from any frequency
map, satisfies the structural invariant: either both children are absent and
the symbol is present (a leaf), or both children are present and the symbol is
absent (an internal node); no node has exactly one child. -/
theorem populate_tree_structuralInv (char_map : List (Char × Int)) :
    structuralInv (populate_tree char_map) :=
  populate_tree_inv char_map

theorem weightInv_parent (och : Option Char) (a b : Link)
    (ha : weightInv a) (hb : weightInv b)
    (hfa : Link.freq a = sumLeafWeights a) (hfb : Link.freq b = sumLeafWeights b) :
    weightInv (Link.node och (Link.freq a + Link.freq b) a b) := by
  cases a with
  | none =>
    cases b with
    | none => trivial
    | node ch2 f2 l2 r2 => exact ⟨by rw [hfa, hfb], ha, hb⟩
  | node ch f l r =>
    cases b with
    | none => exact ⟨by rw [hfa, hfb], ha, hb⟩
    | node ch2 f2 l2 r2 => exact ⟨by rw [hfa, hfb], ha, hb⟩

/-- C6: for every non-empty input text, the weight at the root of the tree
built from the text's frequency map equals the sum of the weights of all its
leaves, and both equal the number of characters of the input. -/
theorem weight_conservation (input : List Char) (h : input ≠ []) :
    rootWeight (populate_tree (find_input_freqs input)) =
      sumLeafWeights (populate_tree (find_input_freqs input)) ∧
    sumLeafWeights (populate_tree (find_input_freqs input)) =
      (input.length : Int) := by
  have hfne : find_input_freqs input ≠ [] := find_input_freqs_ne_nil input h
  have hrun := populate_tree_run _ hfne
  have hall := mergeLoop_forall
    (fun x => weightInv x ∧ Link.freq x = sumLeafWeights x)
    (fun a b ha hb => by
      refine ⟨weightInv_parent Option.none a b ha.1 hb.1 ha.2 hb.2, ?_⟩
      rw [show Link.freq (Link.node Option.none (Link.freq a + Link.freq b) a b) =
        Link.freq a + Link.freq b from rfl, sumLeafWeights_parent, ha.2, hb.2])
    (sortByFreqDesc ((find_input_freqs input).map (fun kv => Node.new kv.1 kv.2))).length
    (sortByFreqDesc ((find_input_freqs input).map (fun kv => Node.new kv.1 kv.2)))
    ?hinit (populate_tree (find_input_freqs input)) (by rw [hrun]; simp)
  case hinit =>
    intro x hx
    have hx' := (sortByFreqDesc_perm _).mem_iff.mp hx
    obtain ⟨kv, _, rfl⟩ := List.mem_map.mp hx'
    exact ⟨trivial, rfl⟩
  have hsum := (mergeLoop_measures
    (sortByFreqDesc ((find_input_freqs input).map (fun kv => Node.new kv.1 kv.2))).length
    (sortByFreqDesc ((find_input_freqs input).map (fun kv => Node.new kv.1 kv.2)))).1
  rw [hrun] at hsum
  have hmap : ((sortByFreqDesc ((find_input_freqs input).map
      (fun kv => Node.new kv.1 kv.2))).map sumLeafWeights).sum =
      sumValues (find_input_freqs input) := by
    rw [((sortByFreqDesc_perm _).map sumLeafWeights).sum_eq]
    rw [List.map_map]
    have : sumLeafWeights ∘ (fun kv : Char × Int => Node.new kv.1 kv.2) = Prod.snd := by
      funext kv
      rfl
    rw [this]
    rfl
  have hfinal : sumLeafWeights (populate_tree (find_input_freqs input)) =
      (input.length : Int) := by
    have : ([populate_tree (find_input_freqs input)].map sumLeafWeights).sum =
        sumLeafWeights (populate_tree (find_input_freqs input)) := by simp
    rw [this] at hsum
    rw [hsum, hmap, sumValues_find_input_freqs]
  refine ⟨?_, hfinal⟩
  rw [rootWeight_eq_freq, hall.2]

theorem weight_conservation_witness :
    (['a', 'b'] : List Char) ≠ [] ∧
    (rootWeight (populate_tree (find_input_freqs ['a', 'b'])) =
      sumLeafWeights (populate_tree (find_input_freqs ['a', 'b'])) ∧
     sumLeafWeights (populate_tree (find_input_freqs ['a', 'b'])) =
      ((['a', 'b'] : List Char).length : Int)) :=
  ⟨by decide, weight_conservation ['a', 'b'] (by decide)⟩

theorem encode_eq_flatten (input : List Char) (huffman_map : List (Char × List Char)) :
    encode input huffman_map =
      (input.map (fun ch => (mapLookup ch huffman_map).getD [])).flatten := by
  suffices key : ∀ (l : List Char) (acc : List Char),
      l.foldl (fun encoded_str ch =>
        encoded_str ++ ((mapLookup ch huffman_map).getD [])) acc =
      acc ++ (l.map (fun ch => (mapLookup ch huffman_map).getD [])).flatten by
    simpa [encode] using key input []
  intro l
  induction l with
  | nil => intro acc; simp
  | cons c t ih =>
    intro acc
    simp only [List.foldl_cons, List.map_cons, List.flatten_cons]
    rw [ih]
    simp [List.append_assoc]

/-- C5: `encode` returns the concatenation, in input order, of the code string
of each character of the text, where a character with no entry in the table
contributes the empty string (a silent no-op) instead of signalling an
error. -/
theorem encode_spec (input : List Char) (huffman_map : List (Char × List Char)) :
    encode input huffman_map =
      (input.map (fun ch => (mapLookup ch huffman_map).getD [])).flatten :=
  encode_eq_flatten input huffman_map

theorem encode_cons (c : Char) (t : List Char) (m : List (Char × List Char)) :
    encode (c :: t) m = ((mapLookup c m).getD []) ++ encode t m := by
  rw [encode_eq_flatten, encode_eq_flatten]
  simp

/-! Lemmas about `huffman_map_step` and the code table. -/

theorem mem_mapInsert {α : Type} (e : Char × α) (k : Char) (v : α)
    (m : List (Char × α)) (he : e ∈ mapInsert k v m) : e = (k, v) ∨ e ∈ m := by
  induction m with
  | nil => simpa [mapInsert] using he
  | cons hd tl ih =>
    obtain ⟨k', v'⟩ := hd
    by_cases h : k' = k
    · subst h
      rcases List.mem_cons.mp (by simpa [mapInsert] using he) with h1 | h1
      · exact Or.inl h1
      · exact Or.inr (List.mem_cons.mpr (Or.inr h1))
    · rcases List.mem_cons.mp (by simpa [mapInsert, h] using he) with h1 | h1
      · exact Or.inr (List.mem_cons.mpr (Or.inl h1))
      · rcases ih h1 with h2 | h2
        · exact Or.inl h2
        · exact Or.inr (List.mem_cons.mpr (Or.inr h2))

theorem huffman_map_step_mem (t : Link) : ∀ (code : List Char)
    (m m' : List (Char × List Char)),
    huffman_map_step t code m = Option.some m' →
    ∀ e ∈ m', e ∈ m ∨ e ∈ leafEntries t code := by
  induction t with
  | none =>
    intro code m m' hstep e he
    simp only [huffman_map_step, Option.some.injEq] at hstep
    subst hstep
    exact Or.inl he
  | node ch f left right ihl ihr =>
    intro code m m' hstep e he
    cases left with
    | none =>
      cases right with
      | none =>
        cases ch with
        | none => simp [huffman_map_step] at hstep
        | some c =>
          simp only [huffman_map_step, Option.some.injEq] at hstep
          subst hstep
          rcases mem_mapInsert e c code m he with he1 | he1
          · exact Or.inr (by simp [leafEntries, he1])
          · exact Or.inl he1
      | node ch2 f2 l2 r2 =>
        replace hstep : huffman_map_step (Link.node ch2 f2 l2 r2)
            (code ++ ['1']) m = Option.some m' := hstep
        rcases ihr (code ++ ['1']) m m' hstep e he with h1 | h1
        · exact Or.inl h1
        · exact Or.inr (by simpa [leafEntries] using h1)
    | node chl fl ll rl =>
      cases right with
      | none =>
        replace hstep : (match huffman_map_step (Link.node chl fl ll rl)
              (code ++ ['0']) m with
            | Option.none => Option.none
            | Option.some m1 => Option.some m1) = Option.some m' := hstep
        cases hL : huffman_map_step (Link.node chl fl ll rl) (code ++ ['0']) m with
        | none => rw [hL] at hstep; exact absurd hstep (by simp)
        | some m1 =>
          rw [hL] at hstep
          simp only [Option.some.injEq] at hstep
          subst hstep
          rcases ihl (code ++ ['0']) m m1 hL e he with h1 | h1
          · exact Or.inl h1
          · exact Or.inr (by simpa [leafEntries] using h1)
      | node chr fr lr rr =>
        replace hstep : (match huffman_map_step (Link.node chl fl ll rl)
              (code ++ ['0']) m with
            | Option.none => Option.none
            | Option.some m1 => huffman_map_step (Link.node chr fr lr rr)
                (code ++ ['1']) m1) = Option.some m' := hstep
        cases hL : huffman_map_step (Link.node chl fl ll rl) (code ++ ['0']) m with
        | none => rw [hL] at hstep; exact absurd hstep (by simp)
        | some m1 =>
          rw [hL] at hstep
          simp only at hstep
          rcases ihr (code ++ ['1']) m1 m' hstep e he with h1 | h1
          · rcases ihl (code ++ ['0']) m m1 hL e h1 with h2 | h2
            · exact Or.inl h2
            · refine Or.inr ?_
              simp only [leafEntries, List.mem_append]
              exact Or.inl h2
          · refine Or.inr ?_
            simp only [leafEntries, List.mem_append]
            exact Or.inr h1

theorem leafEntries_none (code : List Char) :
    leafEntries Link.none code = [] := rfl

theorem leafEntries_shift (t : Link) : ∀ code : List Char,
    leafEntries t code = (leafEntries t []).map (fun e => (e.1, code ++ e.2)) := by
  induction t with
  | none => intro code; rfl
  | node ch f left right ihl ihr =>
    intro code
    cases left with
    | none =>
      cases right with
      | none =>
        cases ch with
        | none => rfl
        | some c => simp [leafEntries]
      | node ch2 f2 l2 r2 =>
        show leafEntries Link.none (code ++ ['0']) ++
            leafEntries (Link.node ch2 f2 l2 r2) (code ++ ['1']) =
          (leafEntries Link.none ([] ++ ['0']) ++
            leafEntries (Link.node ch2 f2 l2 r2) ([] ++ ['1'])).map
              (fun e => (e.1, code ++ e.2))
        rw [ihr (code ++ ['1']), ihr ([] ++ ['1'])]
        simp [leafEntries_none, List.map_map, Function.comp_def, List.append_assoc]
    | node chl fl ll rl =>
      cases right with
      | none =>
        show leafEntries (Link.node chl fl ll rl) (code ++ ['0']) ++
            leafEntries Link.none (code ++ ['1']) =
          (leafEntries (Link.node chl fl ll rl) ([] ++ ['0']) ++
            leafEntries Link.none ([] ++ ['1'])).map
              (fun e => (e.1, code ++ e.2))
        rw [ihl (code ++ ['0']), ihl ([] ++ ['0'])]
        simp [leafEntries_none, List.map_map, Function.comp_def, List.append_assoc]
      | node chr fr lr rr =>
        show leafEntries (Link.node chl fl ll rl) (code ++ ['0']) ++
            leafEntries (Link.node chr fr lr rr) (code ++ ['1']) =
          (leafEntries (Link.node chl fl ll rl) ([] ++ ['0']) ++
            leafEntries (Link.node chr fr lr rr) ([] ++ ['1'])).map
              (fun e => (e.1, code ++ e.2))
        rw [ihl (code ++ ['0']), ihl ([] ++ ['0']),
          ihr (code ++ ['1']), ihr ([] ++ ['1'])]
        simp [List.map_map, Function.comp_def, List.append_assoc]

theorem leafEntries_paths (t : Link) : ∀ (code s1 s2 u : List Char) (c1 c2 : Char),
    (c1, s1) ∈ leafEntries t code → (c2, s2) ∈ leafEntries t code →
    s1 ++ u = s2 → s1 = s2 := by
  induction t with
  | none =>
    intro code s1 s2 u c1 c2 h1 h2 h3
    simp [leafEntries_none] at h1
  | node ch f left right ihl ihr =>
    intro code s1 s2 u c1 c2 h1 h2 h3
    cases left with
    | none =>
      cases right with
      | none =>
        cases ch with
        | none => simp [leafEntries] at h1
        | some c =>
          have e1 : s1 = code := by
            have := (by simpa [leafEntries] using h1 : c1 = c ∧ s1 = code)
            exact this.2
          have e2 : s2 = code := by
            have := (by simpa [leafEntries] using h2 : c2 = c ∧ s2 = code)
            exact this.2
          rw [e1, e2]
      | node ch2 f2 l2 r2 =>
        have h1' : (c1, s1) ∈ leafEntries Link.none (code ++ ['0']) ++
            leafEntries (Link.node ch2 f2 l2 r2) (code ++ ['1']) := h1
        have h2' : (c2, s2) ∈ leafEntries Link.none (code ++ ['0']) ++
            leafEntries (Link.node ch2 f2 l2 r2) (code ++ ['1']) := h2
        exact ihr (code ++ ['1']) s1 s2 u c1 c2
          (by simpa [leafEntries_none] using h1')
          (by simpa [leafEntries_none] using h2') h3
    | node chl fl ll rl =>
      cases right with
      | none =>
        have h1' : (c1, s1) ∈ leafEntries (Link.node chl fl ll rl) (code ++ ['0']) ++
            leafEntries Link.none (code ++ ['1']) := h1
        have h2' : (c2, s2) ∈ leafEntries (Link.node chl fl ll rl) (code ++ ['0']) ++
            leafEntries Link.none (code ++ ['1']) := h2
        exact ihl (code ++ ['0']) s1 s2 u c1 c2
          (by simpa [leafEntries_none] using h1')
          (by simpa [leafEntries_none] using h2') h3
      | node chr fr lr rr =>
        have h1' : (c1, s1) ∈ leafEntries (Link.node chl fl ll rl) (code ++ ['0']) ++
            leafEntries (Link.node chr fr lr rr) (code ++ ['1']) := h1
        have h2' : (c2, s2) ∈ leafEntries (Link.node chl fl ll rl) (code ++ ['0']) ++
            leafEntries (Link.node chr fr lr rr) (code ++ ['1']) := h2
        rcases List.mem_append.mp h1' with hm1 | hm1 <;>
          rcases List.mem_append.mp h2' with hm2 | hm2
        · exact ihl (code ++ ['0']) s1 s2 u c1 c2 hm1 hm2 h3
        · exfalso
          rw [leafEntries_shift (Link.node chl fl ll rl) (code ++ ['0'])] at hm1
          rw [leafEntries_shift (Link.node chr fr lr rr) (code ++ ['1'])] at hm2
          obtain ⟨e1, _, he1⟩ := List.mem_map.mp hm1
          obtain ⟨e2, _, he2⟩ := List.mem_map.mp hm2
          have hs1 : s1 = (code ++ ['0']) ++ e1.2 := (congrArg Prod.snd he1).symm
          have hs2 : s2 = (code ++ ['1']) ++ e2.2 := (congrArg Prod.snd he2).symm
          rw [hs1, hs2] at h3
          simp only [List.append_assoc, List.cons_append, List.nil_append] at h3
          have h4 := List.append_cancel_left h3
          simp at h4
        · exfalso
          rw [leafEntries_shift (Link.node chl fl ll rl) (code ++ ['0'])] at hm2
          rw [leafEntries_shift (Link.node chr fr lr rr) (code ++ ['1'])] at hm1
          obtain ⟨e1, _, he1⟩ := List.mem_map.mp hm1
          obtain ⟨e2, _, he2⟩ := List.mem_map.mp hm2
          have hs1 : s1 = (code ++ ['1']) ++ e1.2 := (congrArg Prod.snd he1).symm
          have hs2 : s2 = (code ++ ['0']) ++ e2.2 := (congrArg Prod.snd he2).symm
          rw [hs1, hs2] at h3
          simp only [List.append_assoc, List.cons_append, List.nil_append] at h3
          have h4 := List.append_cancel_left h3
          simp at h4
        · exact ihr (code ++ ['1']) s1 s2 u c1 c2 hm1 hm2 h3

/-- C2: for every input text with at least two distinct characters, the code
table produced by `generate_huffman_map` over the tree built from the text's
frequency map is free of proper-prefix collisions: whenever one code string of
the table extends to another code string of the table (`s1 ++ u = s2`), the
two are equal, i.e. no code string is a proper prefix of any other. -/
theorem generate_huffman_map_prefix_free (input : List Char)
    (h2 : ∃ a ∈ input, ∃ b ∈ input, a ≠ b)
    (table : List (Char × List Char))
    (htab : generate_huffman_map (populate_tree (find_input_freqs input)) =
      Option.some table) :
    ∀ (c1 c2 : Char) (s1 s2 u : List Char),
      (c1, s1) ∈ table → (c2, s2) ∈ table → s1 ++ u = s2 → s1 = s2 := by
  intro c1 c2 s1 s2 u hm1 hm2 happ
  have hsub := huffman_map_step_mem (populate_tree (find_input_freqs input))
    [] [] table htab
  rcases hsub _ hm1 with h1' | h1'
  · simp at h1'
  rcases hsub _ hm2 with h2' | h2'
  · simp at h2'
  exact leafEntries_paths _ [] s1 s2 u c1 c2 h1' h2' happ

theorem generate_huffman_map_prefix_free_witness :
    (∃ a ∈ (['a', 'b'] : List Char), ∃ b ∈ (['a', 'b'] : List Char), a ≠ b) ∧
    (generate_huffman_map (populate_tree (find_input_freqs ['a', 'b'])) =
      Option.some [('a', ['0']), ('b', ['1'])]) ∧
    (∀ (c1 c2 : Char) (s1 s2 u : List Char),
      (c1, s1) ∈ [('a', ['0']), ('b', ['1'])] →
      (c2, s2) ∈ [('a', ['0']), ('b', ['1'])] → s1 ++ u = s2 → s1 = s2) :=
  ⟨⟨'a', by decide, 'b', by decide, by decide⟩, by decide,
    generate_huffman_map_prefix_free ['a', 'b']
      ⟨'a', by decide, 'b', by decide, by decide⟩
      [('a', ['0']), ('b', ['1'])] (by decide)⟩

/-- C10: `generate_huffman_map` takes the tree by mutable reference but does
not modify it: the head after the call is the head before the call, and a
repeated call returns the same code table. -/
theorem generate_huffman_map_frame (t : HuffTree) :
    (HuffTree.generate_huffman_map_mut t).2 = t ∧
    (HuffTree.generate_huffman_map_mut
      ((HuffTree.generate_huffman_map_mut t).2)).1 =
      (HuffTree.generate_huffman_map_mut t).1 :=
  ⟨rfl, rfl⟩

/-- C3 fails on this code: on the tree built from `"aabc"` (codes `a ↦ 0`,
`b ↦ 10`, `c ↦ 11`), the truncated bitstring `"1"` makes the walk run out of
bits and the Rust code panics in `String::remove` (modelled by `Option.none`),
and the bitstring `"x0"`, which contains a character other than `'0'`/`'1'`,
silently decodes to `"b"` instead of reporting an error: `decode` never
surfaces an explicit failure value. -/
theorem decode_malformed_eval :
    decode (populate_tree (find_input_freqs ['a', 'a', 'b', 'c'])) ['1'] =
      Option.none ∧
    decode (populate_tree (find_input_freqs ['a', 'a', 'b', 'c'])) ['x', '0'] =
      Option.some ['b'] :=
  ⟨rfl, rfl⟩

/-- C4 fails on this code: for the single-distinct-character input `"aaaa"`
the generated table maps `'a'` to the empty code, `encode` produces the empty
bitstring, and `decode` of that empty bitstring returns `""`, not `"aaaa"`. -/
theorem single_symbol_round_trip_eval :
    generate_huffman_map (populate_tree (find_input_freqs ['a', 'a', 'a', 'a'])) =
      Option.some [('a', [])] ∧
    encode ['a', 'a', 'a', 'a']
      ((generate_huffman_map (populate_tree
        (find_input_freqs ['a', 'a', 'a', 'a']))).getD []) = [] ∧
    decode (populate_tree (find_input_freqs ['a', 'a', 'a', 'a']))
      (encode ['a', 'a', 'a', 'a']
        ((generate_huffman_map (populate_tree
          (find_input_freqs ['a', 'a', 'a', 'a']))).getD [])) =
      Option.some [] ∧
    Option.some ([] : List Char) ≠ Option.some ['a', 'a', 'a', 'a'] :=
  ⟨rfl, rfl, rfl, by decide⟩

/-! Lemmas for the round trip (C1). -/

theorem leafEntries_map_fst (t : Link) : ∀ code : List Char,
    (leafEntries t code).map Prod.fst = leafChars t := by
  induction t with
  | none => intro code; rfl
  | node ch f left right ihl ihr =>
    intro code
    cases left with
    | none =>
      cases right with
      | none =>
        cases ch with
        | none => rfl
        | some c => rfl
      | node ch2 f2 l2 r2 =>
        show (leafEntries Link.none (code ++ ['0']) ++
            leafEntries (Link.node ch2 f2 l2 r2) (code ++ ['1'])).map Prod.fst =
          leafChars Link.none ++ leafChars (Link.node ch2 f2 l2 r2)
        rw [List.map_append, ihl, ihr]
    | node chl fl ll rl =>
      cases right with
      | none =>
        show (leafEntries (Link.node chl fl ll rl) (code ++ ['0']) ++
            leafEntries Link.none (code ++ ['1'])).map Prod.fst =
          leafChars (Link.node chl fl ll rl) ++ leafChars Link.none
        rw [List.map_append, ihl, ihr]
      | node chr fr lr rr =>
        show (leafEntries (Link.node chl fl ll rl) (code ++ ['0']) ++
            leafEntries (Link.node chr fr lr rr) (code ++ ['1'])).map Prod.fst =
          leafChars (Link.node chl fl ll rl) ++ leafChars (Link.node chr fr lr rr)
        rw [List.map_append, ihl, ihr]

theorem mapInsert_append {α : Type} (k : Char) (v : α) (m : List (Char × α))
    (h : k ∉ m.map Prod.fst) : mapInsert k v m = m ++ [(k, v)] := by
  induction m with
  | nil => rfl
  | cons hd tl ih =>
    obtain ⟨k', v'⟩ := hd
    simp only [List.map_cons, List.mem_cons] at h
    push_neg at h
    have hk : ¬(k' = k) := fun hh => h.1 hh.symm
    simp only [mapInsert, if_neg hk, List.cons_append]
    rw [ih h.2]

theorem huffman_map_step_append (t : Link) : ∀ (code : List Char)
    (m : List (Char × List Char)),
    structuralInv t → (leafChars t).Nodup →
    (∀ c ∈ leafChars t, c ∉ m.map Prod.fst) →
    huffman_map_step t code m = Option.some (m ++ leafEntries t code) := by
  induction t with
  | none =>
    intro code m _ _ _
    simp [huffman_map_step, leafEntries_none]
  | node ch f left right ihl ihr =>
    intro code m hinv hnd hfresh
    cases left with
    | none =>
      cases right with
      | none =>
        rcases hinv.1 with ⟨_, _, hch⟩ | ⟨habs, _⟩
        · cases ch with
          | none => simp at hch
          | some c =>
            show Option.some (mapInsert c code m) = _
            rw [mapInsert_append c code m
              (hfresh c (by show c ∈ (Option.some c).toList; simp))]
            rfl
        · exact absurd rfl habs
      | node ch2 f2 l2 r2 =>
        exfalso
        rcases hinv.1 with ⟨_, hr, _⟩ | ⟨hl, _, _⟩
        · exact Link.noConfusion hr
        · exact hl rfl
    | node chl fl ll rl =>
      cases right with
      | none =>
        exfalso
        rcases hinv.1 with ⟨hl, _, _⟩ | ⟨_, hr, _⟩
        · exact Link.noConfusion hl
        · exact hr rfl
      | node chr fr lr rr =>
        obtain ⟨_, hinvl, hinvr⟩ := hinv
        have hchars : leafChars (Link.node ch f (Link.node chl fl ll rl)
            (Link.node chr fr lr rr)) =
            leafChars (Link.node chl fl ll rl) ++
              leafChars (Link.node chr fr lr rr) := rfl
        rw [hchars] at hnd hfresh
        obtain ⟨ndl, ndr, hdisj⟩ := List.nodup_append.mp hnd
        have hstepl := ihl (code ++ ['0']) m hinvl ndl
          (fun c hc => hfresh c (List.mem_append.mpr (Or.inl hc)))
        show (match huffman_map_step (Link.node chl fl ll rl) (code ++ ['0']) m with
          | Option.none => Option.none
          | Option.some m1 => huffman_map_step (Link.node chr fr lr rr)
              (code ++ ['1']) m1) = _
        rw [hstepl]
        show huffman_map_step (Link.node chr fr lr rr) (code ++ ['1'])
          (m ++ leafEntries (Link.node chl fl ll rl) (code ++ ['0'])) = _
        have hfresh2 : ∀ c ∈ leafChars (Link.node chr fr lr rr),
            c ∉ (m ++ leafEntries (Link.node chl fl ll rl)
              (code ++ ['0'])).map Prod.fst := by
          intro c hc
          rw [List.map_append, leafEntries_map_fst]
          simp only [List.mem_append]
          push_neg
          exact ⟨hfresh c (List.mem_append.mpr (Or.inr hc)),
            fun hcl => absurd hc (hdisj hcl)⟩
        have hstepr := ihr (code ++ ['1'])
          (m ++ leafEntries (Link.node chl fl ll rl) (code ++ ['0']))
          hinvr ndr hfresh2
        rw [hstepr]
        have hent : leafEntries (Link.node ch f (Link.node chl fl ll rl)
            (Link.node chr fr lr rr)) code =
            leafEntries (Link.node chl fl ll rl) (code ++ ['0']) ++
              leafEntries (Link.node chr fr lr rr) (code ++ ['1']) := rfl
        rw [hent, ← List.append_assoc]

theorem decode_step_path (t : Link) : ∀ (p rest dec : List Char) (c : Char),
    structuralInv t → (c, p) ∈ leafEntries t [] →
    decode_step t (p ++ rest) dec = Option.some (rest, dec ++ [c]) := by
  induction t with
  | none =>
    intro p rest dec c _ hm
    simp [leafEntries_none] at hm
  | node ch f left right ihl ihr =>
    intro p rest dec c hinv hm
    cases left with
    | none =>
      cases right with
      | none =>
        rcases hinv.1 with ⟨_, _, hch⟩ | ⟨habs, _⟩
        · cases ch with
          | none => simp at hch
          | some c0 =>
            have hpc : c = c0 ∧ p = [] := by simpa [leafEntries] using hm
            obtain ⟨rfl, rfl⟩ := hpc
            rfl
        · exact absurd rfl habs
      | node ch2 f2 l2 r2 =>
        exfalso
        rcases hinv.1 with ⟨_, hr, _⟩ | ⟨hl, _, _⟩
        · exact Link.noConfusion hr
        · exact hl rfl
    | node chl fl ll rl =>
      cases right with
      | none =>
        exfalso
        rcases hinv.1 with ⟨hl, _, _⟩ | ⟨_, hr, _⟩
        · exact Link.noConfusion hl
        · exact hr rfl
      | node chr fr lr rr =>
        obtain ⟨_, hinvl, hinvr⟩ := hinv
        have hm' : (c, p) ∈ leafEntries (Link.node chl fl ll rl) ([] ++ ['0']) ++
            leafEntries (Link.node chr fr lr rr) ([] ++ ['1']) := hm
        rcases List.mem_append.mp hm' with hmm | hmm
        · rw [leafEntries_shift _ ([] ++ ['0'])] at hmm
          obtain ⟨⟨c1, p1⟩, hebase, heq⟩ := List.mem_map.mp hmm
          have hc : c1 = c := by simpa using congrArg Prod.fst heq
          have hp : p = '0' :: p1 := by simpa using (congrArg Prod.snd heq).symm
          subst hc
          rw [hp]
          show (if ('0' : Char) = '0'
              then decode_step (Link.node chl fl ll rl) (p1 ++ rest) dec
              else decode_step (Link.node chr fr lr rr) (p1 ++ rest) dec) = _
          rw [if_pos rfl]
          exact ihl p1 rest dec c1 hinvl hebase
        · rw [leafEntries_shift _ ([] ++ ['1'])] at hmm
          obtain ⟨⟨c1, p1⟩, hebase, heq⟩ := List.mem_map.mp hmm
          have hc : c1 = c := by simpa using congrArg Prod.fst heq
          have hp : p = '1' :: p1 := by simpa using (congrArg Prod.snd heq).symm
          subst hc
          rw [hp]
          show (if ('1' : Char) = '0'
              then decode_step (Link.node chl fl ll rl) (p1 ++ rest) dec
              else decode_step (Link.node chr fr lr rr) (p1 ++ rest) dec) = _
          rw [if_neg (by decide)]
          exact ihr p1 rest dec c1 hinvr hebase

theorem leafEntries_path_nonempty (ch : Option Char) (f : Int) (left right : Link)
    (hl : left ≠ Link.none) (c : Char) (p : List Char)
    (hm : (c, p) ∈ leafEntries (Link.node ch f left right) []) : p ≠ [] := by
  cases left with
  | none => exact absurd rfl hl
  | node chl fl ll rl =>
    cases right with
    | none =>
      have hm' : (c, p) ∈ leafEntries (Link.node chl fl ll rl) ([] ++ ['0']) ++
          leafEntries Link.none ([] ++ ['1']) := hm
      rw [leafEntries_none, List.append_nil, leafEntries_shift] at hm'
      obtain ⟨⟨c1, p1⟩, _, heq⟩ := List.mem_map.mp hm'
      have hp : p = '0' :: p1 := by simpa using (congrArg Prod.snd heq).symm
      simp [hp]
    | node chr fr lr rr =>
      have hm' : (c, p) ∈ leafEntries (Link.node chl fl ll rl) ([] ++ ['0']) ++
          leafEntries (Link.node chr fr lr rr) ([] ++ ['1']) := hm
      rcases List.mem_append.mp hm' with hmm | hmm
      · rw [leafEntries_shift _ ([] ++ ['0'])] at hmm
        obtain ⟨⟨c1, p1⟩, _, heq⟩ := List.mem_map.mp hmm
        have hp : p = '0' :: p1 := by simpa using (congrArg Prod.snd heq).symm
        simp [hp]
      · rw [leafEntries_shift _ ([] ++ ['1'])] at hmm
        obtain ⟨⟨c1, p1⟩, _, heq⟩ := List.mem_map.mp hmm
        have hp : p = '1' :: p1 := by simpa using (congrArg Prod.snd heq).symm
        simp [hp]

theorem length_le_encode_length (cs : List Char) (m : List (Char × List Char))
    (h : ∀ c ∈ cs, ∃ p, mapLookup c m = Option.some p ∧ p ≠ []) :
    cs.length ≤ (encode cs m).length := by
  induction cs with
  | nil => simp
  | cons c t ih =>
    obtain ⟨p, hp, hpne⟩ := h c (by simp)
    rw [encode_cons, hp]
    simp only [Option.getD_some, List.length_append, List.length_cons]
    have h1 : 1 ≤ p.length := by
      cases p
      · exact absurd rfl hpne
      · simp
    have h2 := ih (fun c' hc' => h c' (by simp [hc']))
    omega

theorem decodeLoop_encode (t : Link) (table : List (Char × List Char))
    (hinv : structuralInv t) :
    ∀ (cs : List Char) (fuel : Nat) (dec : List Char),
      (∀ c ∈ cs, ∃ p, mapLookup c table = Option.some p ∧
        (c, p) ∈ leafEntries t [] ∧ p ≠ []) →
      cs.length ≤ fuel →
      decodeLoop t fuel (encode cs table) dec = Option.some (dec ++ cs) := by
  intro cs
  induction cs with
  | nil =>
    intro fuel dec _ _
    have he : encode [] table = [] := rfl
    rw [he]
    cases fuel with
    | zero => simp [decodeLoop]
    | succ fuel => simp [decodeLoop]
  | cons c cs' ih =>
    intro fuel dec h hf
    obtain ⟨p, hlook, hpmem, hpne⟩ := h c (by simp)
    cases fuel with
    | zero => simp at hf
    | succ fuel =>
      have henc : encode (c :: cs') table = p ++ encode cs' table := by
        rw [encode_cons, hlook]
        rfl
      rw [henc]
      show (if (p ++ encode cs' table).isEmpty then Option.some dec
        else match decode_step t (p ++ encode cs' table) dec with
          | Option.none => Option.none
          | Option.some (e', d') => decodeLoop t fuel e' d') = _
      rw [if_neg (by
        cases p with
        | nil => exact absurd rfl hpne
        | cons a as => simp)]
      rw [decode_step_path t p (encode cs' table) dec c hinv hpmem]
      show decodeLoop t fuel (encode cs' table) (dec ++ [c]) = _
      rw [ih fuel (dec ++ [c]) (fun c' hc' => h c' (by simp [hc'])) (by
        simp only [List.length_cons] at hf
        omega)]
      simp

theorem two_le_length_of_mem_ne {α : Type} (l : List α) (a b : α)
    (ha : a ∈ l) (hb : b ∈ l) (hab : a ≠ b) : 2 ≤ l.length := by
  cases l with
  | nil => simp at ha
  | cons x t =>
    cases t with
    | nil =>
      simp at ha hb
      exact absurd (ha.trans hb.symm) hab
    | cons y t2 =>
      simp only [List.length_cons]
      omega

/-- C1: for every non-empty input text with at least two distinct characters,
the full pipeline round-trips: the code table generated from the tree built
from the text's frequency map exists, and decoding (against that same tree)
the encoding of the text under that table yields exactly the original text. -/
theorem decode_encode_round_trip (input : List Char) (hne : input ≠ [])
    (h2 : ∃ a ∈ input, ∃ b ∈ input, a ≠ b) :
    ∃ table, generate_huffman_map (populate_tree (find_input_freqs input)) =
        Option.some table ∧
      decode (populate_tree (find_input_freqs input)) (encode input table) =
        Option.some input := by
  obtain ⟨a, ha, b, hb, hab⟩ := h2
  have hfne := find_input_freqs_ne_nil input hne
  have hnd := find_input_freqs_nodup input
  have h2len : 2 ≤ (find_input_freqs input).length := by
    have h2' := two_le_length_of_mem_ne ((find_input_freqs input).map Prod.fst) a b
      ((find_input_freqs_mem input a).mpr ha)
      ((find_input_freqs_mem input b).mpr hb) hab
    simpa using h2'
  have hrun := populate_tree_run _ hfne
  have hint := mergeLoop_internal
    (sortByFreqDesc ((find_input_freqs input).map
      (fun kv => Node.new kv.1 kv.2))).length
    (sortByFreqDesc ((find_input_freqs input).map (fun kv => Node.new kv.1 kv.2)))
    (by rw [sortByFreqDesc_length, List.length_map]; exact h2len)
    (Nat.le_succ _)
    (by
      intro x hx
      have hx' := (sortByFreqDesc_perm _).mem_iff.mp hx
      obtain ⟨kv, _, rfl⟩ := List.mem_map.mp hx'
      intro h0
      exact Link.noConfusion h0)
  obtain ⟨f, aL, bL, hres, haL, hbL⟩ := hint
  rw [hrun] at hres
  have hteq : populate_tree (find_input_freqs input) =
      Link.node Option.none f aL bL := by
    simpa using hres
  have hinv : structuralInv (populate_tree (find_input_freqs input)) :=
    populate_tree_inv _
  have hperm : List.Perm (leafChars (populate_tree (find_input_freqs input)))
      ((find_input_freqs input).map Prod.fst) := by
    have hm := (mergeLoop_measures
      (sortByFreqDesc ((find_input_freqs input).map
        (fun kv => Node.new kv.1 kv.2))).length
      (sortByFreqDesc ((find_input_freqs input).map
        (fun kv => Node.new kv.1 kv.2)))).2
    rw [hrun] at hm
    have hl : ([populate_tree (find_input_freqs input)].map leafChars).flatten =
        leafChars (populate_tree (find_input_freqs input)) := by simp
    rw [hl] at hm
    refine hm.trans ?_
    refine (flatten_perm_of_perm ((sortByFreqDesc_perm _).map leafChars)).trans ?_
    rw [List.map_map]
    have hcomp : leafChars ∘ (fun kv : Char × Int => Node.new kv.1 kv.2) =
        fun kv : Char × Int => [kv.1] := by
      funext kv
      rfl
    rw [hcomp]
    have hflat : ∀ m : List (Char × Int),
        (m.map (fun kv : Char × Int => [kv.1])).flatten = m.map Prod.fst := by
      intro m
      induction m with
      | nil => rfl
      | cons hd tl ih => simp [ih]
    rw [hflat]
  have hndchars : (leafChars (populate_tree (find_input_freqs input))).Nodup :=
    hperm.nodup_iff.mpr hnd
  have htable := huffman_map_step_append (populate_tree (find_input_freqs input))
    [] [] hinv hndchars (by simp)
  refine ⟨leafEntries (populate_tree (find_input_freqs input)) [], ?_, ?_⟩
  · show huffman_map_step _ [] [] = _
    rw [htable]
    rfl
  · have hforall : ∀ c ∈ input, ∃ p,
        mapLookup c (leafEntries (populate_tree (find_input_freqs input)) []) =
          Option.some p ∧
        (c, p) ∈ leafEntries (populate_tree (find_input_freqs input)) [] ∧
        p ≠ [] := by
      intro c hc
      have hckeys : c ∈ (find_input_freqs input).map Prod.fst :=
        (find_input_freqs_mem input c).mpr hc
      have hcchars : c ∈ leafChars (populate_tree (find_input_freqs input)) :=
        hperm.mem_iff.mpr hckeys
      have hcent : c ∈ (leafEntries (populate_tree (find_input_freqs input))
          []).map Prod.fst := by
        rw [leafEntries_map_fst]
        exact hcchars
      obtain ⟨⟨c1, p⟩, hemem, heq⟩ := List.mem_map.mp hcent
      have hc1 : c1 = c := by simpa using heq
      subst hc1
      refine ⟨p, ?_, hemem, ?_⟩
      · apply mapLookup_of_mem_nodup
        · rw [leafEntries_map_fst]
          exact hndchars
        · exact hemem
      · rw [hteq] at hemem
        exact leafEntries_path_nonempty Option.none f aL bL haL c1 p hemem
    show decodeLoop _ ((encode input _).length + 1) (encode input _) [] = _
    rw [decodeLoop_encode (populate_tree (find_input_freqs input))
      (leafEntries (populate_tree (find_input_freqs input)) []) hinv input
      ((encode input (leafEntries (populate_tree
        (find_input_freqs input)) [])).length + 1) [] hforall ?_]
    · simp
    · have hlen := length_le_encode_length input
        (leafEntries (populate_tree (find_input_freqs input)) [])
        (fun c hc => by
          obtain ⟨p, h1, _, h3⟩ := hforall c hc
          exact ⟨p, h1, h3⟩)
      omega

/-! Machinery for the code-length-ordering claim (C9): the constructed tree
minimises the weighted external path length, and an exchange argument then
bounds the code lengths. -/

theorem sumLeafWeights_eq_sum (t : Link) :
    sumLeafWeights t = (leafWeights t).sum := by
  induction t with
  | none => rfl
  | node ch f left right ihl ihr =>
    cases left with
    | none =>
      cases right with
      | none => simp [sumLeafWeights, leafWeights]
      | node ch2 f2 l2 r2 =>
        show sumLeafWeights Link.none + sumLeafWeights (Link.node ch2 f2 l2 r2) =
          (leafWeights Link.none ++ leafWeights (Link.node ch2 f2 l2 r2)).sum
        rw [ihl, ihr, List.sum_append]
    | node chl fl ll rl =>
      cases right with
      | none =>
        show sumLeafWeights (Link.node chl fl ll rl) + sumLeafWeights Link.none =
          (leafWeights (Link.node chl fl ll rl) ++ leafWeights Link.none).sum
        rw [ihl, ihr, List.sum_append]
      | node chr fr lr rr =>
        show sumLeafWeights (Link.node chl fl ll rl) +
            sumLeafWeights (Link.node chr fr lr rr) =
          (leafWeights (Link.node chl fl ll rl) ++
            leafWeights (Link.node chr fr lr rr)).sum
        rw [ihl, ihr, List.sum_append]

theorem sumLeafWeights_nonneg (t : Link)
    (h : ∀ w ∈ leafWeights t, 0 ≤ w) : 0 ≤ sumLeafWeights t := by
  rw [sumLeafWeights_eq_sum]
  exact List.sum_nonneg h

theorem cost_nonneg (t : Link) (h : ∀ w ∈ leafWeights t, 0 ≤ w) :
    0 ≤ cost t := by
  induction t with
  | none => exact le_refl 0
  | node ch f left right ihl ihr =>
    cases hl : left with
    | none =>
      cases hr : right with
      | none => exact le_refl 0
      | node ch2 f2 l2 r2 =>
        subst hl hr
        have hsplit : ∀ w ∈ leafWeights Link.none ++
            leafWeights (Link.node ch2 f2 l2 r2), 0 ≤ w := h
        show 0 ≤ cost Link.none + cost (Link.node ch2 f2 l2 r2) +
          sumLeafWeights Link.none + sumLeafWeights (Link.node ch2 f2 l2 r2)
        have h1 := ihl (fun w hw => hsplit w (List.mem_append.mpr (Or.inl hw)))
        have h2 := ihr (fun w hw => hsplit w (List.mem_append.mpr (Or.inr hw)))
        have h3 := sumLeafWeights_nonneg Link.none
          (fun w hw => hsplit w (List.mem_append.mpr (Or.inl hw)))
        have h4 := sumLeafWeights_nonneg (Link.node ch2 f2 l2 r2)
          (fun w hw => hsplit w (List.mem_append.mpr (Or.inr hw)))
        omega
    | node chl fl ll rl =>
      cases hr : right with
      | none =>
        subst hl hr
        have hsplit : ∀ w ∈ leafWeights (Link.node chl fl ll rl) ++
            leafWeights Link.none, 0 ≤ w := h
        show 0 ≤ cost (Link.node chl fl ll rl) + cost Link.none +
          sumLeafWeights (Link.node chl fl ll rl) + sumLeafWeights Link.none
        have h1 := ihl (fun w hw => hsplit w (List.mem_append.mpr (Or.inl hw)))
        have h2 := ihr (fun w hw => hsplit w (List.mem_append.mpr (Or.inr hw)))
        have h3 := sumLeafWeights_nonneg (Link.node chl fl ll rl)
          (fun w hw => hsplit w (List.mem_append.mpr (Or.inl hw)))
        have h4 := sumLeafWeights_nonneg Link.none
          (fun w hw => hsplit w (List.mem_append.mpr (Or.inr hw)))
        omega
      | node chr fr lr rr =>
        subst hl hr
        have hsplit : ∀ w ∈ leafWeights (Link.node chl fl ll rl) ++
            leafWeights (Link.node chr fr lr rr), 0 ≤ w := h
        show 0 ≤ cost (Link.node chl fl ll rl) + cost (Link.node chr fr lr rr) +
          sumLeafWeights (Link.node chl fl ll rl) +
          sumLeafWeights (Link.node chr fr lr rr)
        have h1 := ihl (fun w hw => hsplit w (List.mem_append.mpr (Or.inl hw)))
        have h2 := ihr (fun w hw => hsplit w (List.mem_append.mpr (Or.inr hw)))
        have h3 := sumLeafWeights_nonneg (Link.node chl fl ll rl)
          (fun w hw => hsplit w (List.mem_append.mpr (Or.inl hw)))
        have h4 := sumLeafWeights_nonneg (Link.node chr fr lr rr)
          (fun w hw => hsplit w (List.mem_append.mpr (Or.inr hw)))
        omega

theorem leafWeights_parent (och : Option Char) (w : Int) (a b : Link)
    (hab : ¬(a = Link.none ∧ b = Link.none)) :
    leafWeights (Link.node och w a b) = leafWeights a ++ leafWeights b := by
  cases a with
  | none =>
    cases b with
    | none => exact absurd ⟨rfl, rfl⟩ hab
    | node ch2 f2 l2 r2 => rfl
  | node ch2 f2 l2 r2 => cases b <;> rfl

theorem sumLeafWeights_node (och : Option Char) (w : Int) (a b : Link)
    (hab : ¬(a = Link.none ∧ b = Link.none)) :
    sumLeafWeights (Link.node och w a b) =
      sumLeafWeights a + sumLeafWeights b := by
  cases a with
  | none =>
    cases b with
    | none => exact absurd ⟨rfl, rfl⟩ hab
    | node ch2 f2 l2 r2 => rfl
  | node ch2 f2 l2 r2 => cases b <;> rfl

theorem cost_node (och : Option Char) (w : Int) (a b : Link)
    (hab : ¬(a = Link.none ∧ b = Link.none)) :
    cost (Link.node och w a b) =
      cost a + cost b + sumLeafWeights a + sumLeafWeights b := by
  cases a with
  | none =>
    cases b with
    | none => exact absurd ⟨rfl, rfl⟩ hab
    | node ch2 f2 l2 r2 => rfl
  | node ch2 f2 l2 r2 => cases b <;> rfl

theorem mergeLoop_leafWeights (fuel : Nat) : ∀ l : List Link,
    (∀ x ∈ l, x ≠ Link.none) →
    List.Perm ((mergeLoop fuel l).map leafWeights).flatten
      (l.map leafWeights).flatten := by
  induction fuel with
  | zero => intro l _; exact List.Perm.refl _
  | succ fuel ih =>
    intro l hne
    by_cases h : 1 < l.length
    · obtain ⟨A, left, right, hdec, hstep⟩ := mergeLoop_step fuel l h
      rw [hstep]
      have hleft : left ≠ Link.none := hne left (by rw [hdec]; simp)
      have hne2 : ∀ x ∈ sortByFreqDesc (A ++
          [Link.node Option.none (Link.freq left + Link.freq right) left right]),
          x ≠ Link.none := by
        intro x hx
        have hx' := (sortByFreqDesc_perm _).mem_iff.mp hx
        rcases List.mem_append.mp hx' with hx' | hx'
        · exact hne x (by rw [hdec]; exact List.mem_append.mpr (Or.inl hx'))
        · have hx'' : x = Link.node Option.none (Link.freq left + Link.freq right)
              left right := by simpa using hx'
          subst hx''
          intro h0
          exact Link.noConfusion h0
      refine (ih _ hne2).trans ?_
      refine (flatten_perm_of_perm ((sortByFreqDesc_perm _).map leafWeights)).trans ?_
      rw [hdec]
      simp [leafWeights_parent Option.none _ left right (fun hh => hleft hh.1)]
    · rw [mergeLoop_of_length_le_one _ _ (by omega)]

theorem sortInsert_sortedDesc (n : Link) (l : List Link) (h : SortedDesc l) :
    SortedDesc (sortInsert n l) := by
  induction l with
  | nil => simp [sortInsert, SortedDesc]
  | cons m ms ih =>
    obtain ⟨hm, hms⟩ := List.pairwise_cons.mp h
    by_cases hlt : Link.freq m < Link.freq n
    · simp only [sortInsert, if_pos hlt]
      refine List.pairwise_cons.mpr ⟨?_, h⟩
      intro y hy
      rcases List.mem_cons.mp hy with rfl | hy
      · exact le_of_lt hlt
      · exact le_trans (hm y hy) (le_of_lt hlt)
    · simp only [sortInsert, if_neg hlt]
      refine List.pairwise_cons.mpr ⟨?_, ih hms⟩
      intro y hy
      rcases List.mem_cons.mp ((sortInsert_perm n ms).mem_iff.mp hy) with rfl | hy
      · exact le_of_not_lt hlt
      · exact hm y hy

theorem sortByFreqDesc_sortedDesc (l : List Link) : SortedDesc (sortByFreqDesc l) := by
  suffices key : ∀ (l acc : List Link), SortedDesc acc →
      SortedDesc (l.foldl (fun acc n => sortInsert n acc) acc) by
    exact key l [] (by simp [SortedDesc])
  intro l
  induction l with
  | nil => intro acc h; exact h
  | cons n t ih =>
    intro acc h
    exact ih (sortInsert n acc) (sortInsert_sortedDesc n acc h)

theorem sortedDesc_extract (A : List Link) (x y : Link)
    (h : SortedDesc (A ++ [x, y])) :
    Link.freq y ≤ Link.freq x ∧
    ∀ z ∈ A, Link.freq x ≤ Link.freq z ∧ Link.freq y ≤ Link.freq z := by
  obtain ⟨hA, hxy, hcross⟩ := List.pairwise_append.mp h
  refine ⟨?_, ?_⟩
  · obtain ⟨h1, _⟩ := List.pairwise_cons.mp hxy
    exact h1 y (by simp)
  · intro z hz
    exact ⟨hcross z hz x (by simp), hcross z hz y (by simp)⟩

theorem mapLookup_mem {α : Type} (c : Char) (v : α) (m : List (Char × α))
    (h : mapLookup c m = Option.some v) : (c, v) ∈ m := by
  induction m with
  | nil => simp [mapLookup] at h
  | cons hd tl ih =>
    obtain ⟨k', v'⟩ := hd
    by_cases hk : k' = c
    · subst hk
      have h2 : v' = v := by simpa [mapLookup] using h
      subst h2
      simp
    · simp only [mapLookup, if_neg hk] at h
      exact List.mem_cons.mpr (Or.inr (ih h))

theorem getSub_of_none (q : List Bool) (v : Link)
    (h : getSub Link.none q = Option.some v) : v = Link.none := by
  cases q with
  | nil => simpa [getSub] using h.symm
  | cons b q' => simp [getSub] at h

theorem getSub_root_ne_none (p : List Bool) : ∀ (c u : Link),
    getSub c p = Option.some u → u ≠ Link.none → c ≠ Link.none := by
  intro c u h hu hc
  subst hc
  exact hu (getSub_of_none p u h)

theorem setSub_ne_none (p : List Bool) : ∀ (t s : Link),
    t ≠ Link.none → s ≠ Link.none → setSub t p s ≠ Link.none := by
  intro t s ht hs
  cases p with
  | nil => simpa [setSub] using hs
  | cons b p' =>
    cases t with
    | none => exact absurd rfl ht
    | node ch f l r =>
      cases b <;> simp [setSub]

theorem sumLeafWeights_setSub (p : List Bool) : ∀ (t u s : Link),
    getSub t p = Option.some u → u ≠ Link.none → s ≠ Link.none →
    sumLeafWeights (setSub t p s) =
      sumLeafWeights t - sumLeafWeights u + sumLeafWeights s := by
  induction p with
  | nil =>
    intro t u s h _ _
    have ht : t = u := by simpa [getSub] using h
    subst ht
    rw [show setSub t [] s = s from by simp [setSub]]
    ring
  | cons b p' ih =>
    intro t u s h hu hs
    cases t with
    | none => simp [getSub] at h
    | node ch f l r =>
      cases b with
      | false =>
        have h' : getSub l p' = Option.some u := h
        have hl : l ≠ Link.none := getSub_root_ne_none p' l u h' hu
        show sumLeafWeights (Link.node ch f (setSub l p' s) r) = _
        rw [sumLeafWeights_node ch f (setSub l p' s) r
          (fun hh => setSub_ne_none p' l s hl hs hh.1)]
        rw [sumLeafWeights_node ch f l r (fun hh => hl hh.1)]
        rw [ih l u s h' hu hs]
        ring
      | true =>
        have h' : getSub r p' = Option.some u := h
        have hr : r ≠ Link.none := getSub_root_ne_none p' r u h' hu
        show sumLeafWeights (Link.node ch f l (setSub r p' s)) = _
        rw [sumLeafWeights_node ch f l (setSub r p' s)
          (fun hh => setSub_ne_none p' r s hr hs hh.2)]
        rw [sumLeafWeights_node ch f l r (fun hh => hr hh.2)]
        rw [ih r u s h' hu hs]
        ring

theorem cost_setSub (p : List Bool) : ∀ (t u s : Link),
    getSub t p = Option.some u → u ≠ Link.none → s ≠ Link.none →
    cost (setSub t p s) =
      cost t - (cost u + sumLeafWeights u * (p.length : Int))
        + (cost s + sumLeafWeights s * (p.length : Int)) := by
  induction p with
  | nil =>
    intro t u s h _ _
    have ht : t = u := by simpa [getSub] using h
    subst ht
    rw [show setSub t [] s = s from by simp [setSub]]
    simp only [List.length_nil, Nat.cast_zero, mul_zero, add_zero]
    ring
  | cons b p' ih =>
    intro t u s h hu hs
    cases t with
    | none => simp [getSub] at h
    | node ch f l r =>
      cases b with
      | false =>
        have h' : getSub l p' = Option.some u := h
        have hl : l ≠ Link.none := getSub_root_ne_none p' l u h' hu
        show cost (Link.node ch f (setSub l p' s) r) = _
        rw [cost_node ch f (setSub l p' s) r
          (fun hh => setSub_ne_none p' l s hl hs hh.1)]
        rw [cost_node ch f l r (fun hh => hl hh.1)]
        rw [ih l u s h' hu hs, sumLeafWeights_setSub p' l u s h' hu hs]
        simp only [List.length_cons]
        push_cast
        ring
      | true =>
        have h' : getSub r p' = Option.some u := h
        have hr : r ≠ Link.none := getSub_root_ne_none p' r u h' hu
        show cost (Link.node ch f l (setSub r p' s)) = _
        rw [cost_node ch f l (setSub r p' s)
          (fun hh => setSub_ne_none p' r s hr hs hh.2)]
        rw [cost_node ch f l r (fun hh => hr hh.2)]
        rw [ih r u s h' hu hs, sumLeafWeights_setSub p' r u s h' hu hs]
        simp only [List.length_cons]
        push_cast
        ring

theorem leafWeights_setSub (p : List Bool) : ∀ (t u s : Link),
    getSub t p = Option.some u → u ≠ Link.none → s ≠ Link.none →
    List.Perm (leafWeights (setSub t p s) ++ leafWeights u)
      (leafWeights t ++ leafWeights s) := by
  induction p with
  | nil =>
    intro t u s h _ _
    have ht : t = u := by simpa [getSub] using h
    subst ht
    rw [show setSub t [] s = s from by simp [setSub]]
    exact List.perm_append_comm
  | cons b p' ih =>
    intro t u s h hu hs
    cases t with
    | none => simp [getSub] at h
    | node ch f l r =>
      cases b with
      | false =>
        have h' : getSub l p' = Option.some u := h
        have hl : l ≠ Link.none := getSub_root_ne_none p' l u h' hu
        show List.Perm (leafWeights (Link.node ch f (setSub l p' s) r) ++
          leafWeights u) _
        rw [leafWeights_parent ch f (setSub l p' s) r
          (fun hh => setSub_ne_none p' l s hl hs hh.1)]
        rw [leafWeights_parent ch f l r (fun hh => hl hh.1)]
        have hstep := ih l u s h' hu hs
        have P1 : List.Perm
            ((leafWeights (setSub l p' s) ++ leafWeights r) ++ leafWeights u)
            ((leafWeights (setSub l p' s) ++ leafWeights u) ++ leafWeights r) := by
          rw [List.append_assoc, List.append_assoc]
          exact List.Perm.append_left _ List.perm_append_comm
        have P2 : List.Perm
            ((leafWeights (setSub l p' s) ++ leafWeights u) ++ leafWeights r)
            ((leafWeights l ++ leafWeights s) ++ leafWeights r) :=
          hstep.append_right _
        have P3 : List.Perm
            ((leafWeights l ++ leafWeights s) ++ leafWeights r)
            ((leafWeights l ++ leafWeights r) ++ leafWeights s) := by
          rw [List.append_assoc, List.append_assoc]
          exact List.Perm.append_left _ List.perm_append_comm
        exact (P1.trans P2).trans P3
      | true =>
        have h' : getSub r p' = Option.some u := h
        have hr : r ≠ Link.none := getSub_root_ne_none p' r u h' hu
        show List.Perm (leafWeights (Link.node ch f l (setSub r p' s)) ++
          leafWeights u) _
        rw [leafWeights_parent ch f l (setSub r p' s)
          (fun hh => setSub_ne_none p' r s hr hs hh.2)]
        rw [leafWeights_parent ch f l r (fun hh => hr hh.2)]
        rw [List.append_assoc, List.append_assoc]
        exact List.Perm.append_left _ (ih r u s h' hu hs)

theorem getSub_setSub_of_diverge (r : List Bool) : ∀ (t s : Link) (bp bq : Bool)
    (p q : List Bool), bp ≠ bq →
    getSub (setSub t (r ++ bp :: p) s) (r ++ bq :: q) = getSub t (r ++ bq :: q) := by
  induction r with
  | nil =>
    intro t s bp bq p q hne
    cases t with
    | none => simp [setSub]
    | node ch f l r =>
      cases bp with
      | false =>
        cases bq with
        | false => exact absurd rfl hne
        | true => simp [setSub, getSub]
      | true =>
        cases bq with
        | false => simp [setSub, getSub]
        | true => exact absurd rfl hne
  | cons b r' ih =>
    intro t s bp bq p q hne
    cases t with
    | none => simp [setSub]
    | node ch f l r =>
      cases b with
      | false =>
        show getSub (Link.node ch f (setSub l (r' ++ bp :: p) s) r)
            (false :: (r' ++ bq :: q)) = _
        simp only [getSub, if_neg Bool.false_ne_true]
        exact ih l s bp bq p q hne
      | true =>
        show getSub (Link.node ch f l (setSub r (r' ++ bp :: p) s))
            (true :: (r' ++ bq :: q)) = _
        simp only [getSub, if_pos rfl]
        exact ih r s bp bq p q hne

theorem leaf_paths_diverge : ∀ (p q : List Bool) (t : Link)
    (chu chv : Option Char) (fu fv : Int),
    getSub t p = Option.some (Link.node chu fu Link.none Link.none) →
    getSub t q = Option.some (Link.node chv fv Link.none Link.none) →
    p ≠ q →
    ∃ r bp bq p' q', p = r ++ bp :: p' ∧ q = r ++ bq :: q' ∧ bp ≠ bq := by
  intro p
  induction p with
  | nil =>
    intro q t chu chv fu fv hp hq hne
    have ht : t = Link.node chu fu Link.none Link.none := by
      simpa [getSub] using hp
    subst ht
    cases q with
    | nil => exact absurd rfl hne
    | cons b q' =>
      exfalso
      cases b with
      | false =>
        have h2 : getSub Link.none q' =
            Option.some (Link.node chv fv Link.none Link.none) := hq
        exact Link.noConfusion (getSub_of_none q' _ h2)
      | true =>
        have h2 : getSub Link.none q' =
            Option.some (Link.node chv fv Link.none Link.none) := hq
        exact Link.noConfusion (getSub_of_none q' _ h2)
  | cons bp p' ihp =>
    intro q t chu chv fu fv hp hq hne
    cases q with
    | nil =>
      exfalso
      have ht : t = Link.node chv fv Link.none Link.none := by
        simpa [getSub] using hq
      subst ht
      cases bp with
      | false =>
        have h2 : getSub Link.none p' =
            Option.some (Link.node chu fu Link.none Link.none) := hp
        exact Link.noConfusion (getSub_of_none p' _ h2)
      | true =>
        have h2 : getSub Link.none p' =
            Option.some (Link.node chu fu Link.none Link.none) := hp
        exact Link.noConfusion (getSub_of_none p' _ h2)
    | cons bq q' =>
      by_cases hbb : bp = bq
      · subst hbb
        cases t with
        | none => simp [getSub] at hp
        | node ch f l r =>
          have hp' : getSub (if bp then r else l) p' =
              Option.some (Link.node chu fu Link.none Link.none) := hp
          have hq' : getSub (if bp then r else l) q' =
              Option.some (Link.node chv fv Link.none Link.none) := hq
          have hne' : p' ≠ q' := fun hh => hne (by rw [hh])
          obtain ⟨r0, b1, b2, p1, q1, e1, e2, hb⟩ :=
            ihp q' (if bp then r else l) chu chv fu fv hp' hq' hne'
          exact ⟨bp :: r0, b1, b2, p1, q1, by rw [e1]; rfl, by rw [e2]; rfl, hb⟩
      · exact ⟨[], bp, bq, p', q', rfl, rfl, hbb⟩

theorem structuralInv_setSub (p : List Bool) : ∀ (t u s : Link),
    getSub t p = Option.some u → u ≠ Link.none → s ≠ Link.none →
    structuralInv t → structuralInv s → structuralInv (setSub t p s) := by
  induction p with
  | nil =>
    intro t u s _ _ _ _ hs
    rw [show setSub t [] s = s from by simp [setSub]]
    exact hs
  | cons b p' ih =>
    intro t u s h hu hs hinv hsinv
    cases t with
    | none => simp [getSub] at h
    | node ch f l r =>
      obtain ⟨hshape, hl, hr⟩ := hinv
      cases b with
      | false =>
        have h' : getSub l p' = Option.some u := h
        have hlne : l ≠ Link.none := getSub_root_ne_none p' l u h' hu
        rcases hshape with ⟨he, _, _⟩ | ⟨_, hrne, hch⟩
        · exact absurd he hlne
        · show structuralInv (Link.node ch f (setSub l p' s) r)
          exact ⟨Or.inr ⟨setSub_ne_none p' l s hlne hs, hrne, hch⟩,
            ih l u s h' hu hs hl hsinv, hr⟩
      | true =>
        have h' : getSub r p' = Option.some u := h
        have hrne : r ≠ Link.none := getSub_root_ne_none p' r u h' hu
        rcases hshape with ⟨_, he, _⟩ | ⟨hlne, _, hch⟩
        · exact absurd he hrne
        · show structuralInv (Link.node ch f l (setSub r p' s))
          exact ⟨Or.inr ⟨hlne, setSub_ne_none p' r s hrne hs, hch⟩,
            hl, ih r u s h' hu hs hr hsinv⟩

theorem getSub_append (p q : List Bool) : ∀ t : Link,
    getSub t (p ++ q) = (getSub t p).bind (fun u => getSub u q) := by
  induction p with
  | nil => intro t; cases t <;> rfl
  | cons b p' ih =>
    intro t
    cases t with
    | none => rfl
    | node ch f l r => exact ih (if b then r else l)

theorem structuralInv_getSub (p : List Bool) : ∀ t u : Link,
    structuralInv t → getSub t p = Option.some u → structuralInv u := by
  induction p with
  | nil =>
    intro t u hinv h
    have ht : t = u := by simpa [getSub] using h
    exact ht ▸ hinv
  | cons b p' ih =>
    intro t u hinv h
    cases t with
    | none => simp [getSub] at h
    | node ch f l r =>
      obtain ⟨_, hl, hr⟩ := hinv
      cases b with
      | false => exact ih l u hl h
      | true => exact ih r u hr h

theorem leafFreqOk_getSub (m : List (Char × Int)) (p : List Bool) : ∀ t u : Link,
    leafFreqOk m t → getSub t p = Option.some u → leafFreqOk m u := by
  induction p with
  | nil =>
    intro t u hok h
    have ht : t = u := by simpa [getSub] using h
    exact ht ▸ hok
  | cons b p' ih =>
    intro t u hok h
    cases t with
    | none => simp [getSub] at h
    | node ch f l r =>
      cases l with
      | none =>
        cases r with
        | none =>
          have hu : u = Link.none := by
            cases b with
            | false => exact getSub_of_none p' u h
            | true => exact getSub_of_none p' u h
          rw [hu]
          trivial
        | node ch2 f2 l2 r2 =>
          obtain ⟨hol, hor⟩ := hok
          cases b with
          | false => exact ih Link.none u hol h
          | true => exact ih (Link.node ch2 f2 l2 r2) u hor h
      | node ch2 f2 l2 r2 =>
        obtain ⟨hol, hor⟩ := hok
        cases b with
        | false => exact ih (Link.node ch2 f2 l2 r2) u hol h
        | true => exact ih r u hor h

theorem leafPathsW_node (och : Option Char) (w : Int) (a b : Link)
    (hab : ¬(a = Link.none ∧ b = Link.none)) :
    leafPathsW (Link.node och w a b) =
      (leafPathsW a).map (fun e => (false :: e.1, e.2)) ++
      (leafPathsW b).map (fun e => (true :: e.1, e.2)) := by
  cases a with
  | none =>
    cases b with
    | none => exact absurd ⟨rfl, rfl⟩ hab
    | node ch2 f2 l2 r2 => rfl
  | node ch2 f2 l2 r2 => cases b <;> rfl

theorem leafPathsW_map_snd (t : Link) :
    (leafPathsW t).map Prod.snd = leafWeights t := by
  induction t with
  | none => rfl
  | node ch f left right ihl ihr =>
    by_cases hab : left = Link.none ∧ right = Link.none
    · obtain ⟨rfl, rfl⟩ := hab
      rfl
    · rw [leafPathsW_node ch f left right hab, leafWeights_parent ch f left right hab,
        List.map_append, List.map_map, List.map_map,
        show (Prod.snd ∘ fun e : List Bool × Int => (false :: e.1, e.2)) =
          Prod.snd from rfl,
        show (Prod.snd ∘ fun e : List Bool × Int => (true :: e.1, e.2)) =
          Prod.snd from rfl, ihl, ihr]

theorem leafPathsW_getSub : ∀ (t : Link) (p : List Bool) (w : Int),
    (p, w) ∈ leafPathsW t →
    ∃ ch, getSub t p = Option.some (Link.node ch w Link.none Link.none) := by
  intro t
  induction t with
  | none => intro p w hm; simp [leafPathsW] at hm
  | node ch f left right ihl ihr =>
    intro p w hm
    by_cases hab : left = Link.none ∧ right = Link.none
    · obtain ⟨rfl, rfl⟩ := hab
      have hpw : p = [] ∧ w = f := by simpa [leafPathsW] using hm
      obtain ⟨rfl, rfl⟩ := hpw
      exact ⟨ch, rfl⟩
    · rw [leafPathsW_node ch f left right hab] at hm
      rcases List.mem_append.mp hm with hmm | hmm
      · obtain ⟨⟨p1, w1⟩, hmem, heq⟩ := List.mem_map.mp hmm
        cases heq
        exact ihl p1 w1 hmem
      · obtain ⟨⟨p1, w1⟩, hmem, heq⟩ := List.mem_map.mp hmm
        cases heq
        exact ihr p1 w1 hmem

theorem getSub_leafPathsW (p : List Bool) : ∀ (t : Link) (ch : Option Char) (w : Int),
    getSub t p = Option.some (Link.node ch w Link.none Link.none) →
    (p, w) ∈ leafPathsW t := by
  induction p with
  | nil =>
    intro t ch w h
    have ht : t = Link.node ch w Link.none Link.none := by simpa [getSub] using h
    subst ht
    simp [leafPathsW]
  | cons b p' ih =>
    intro t ch w h
    cases t with
    | none => simp [getSub] at h
    | node chh f l r =>
      have hab : ¬(l = Link.none ∧ r = Link.none) := by
        rintro ⟨rfl, rfl⟩
        have hu : Link.node ch w Link.none Link.none = Link.none := by
          cases b with
          | false => exact getSub_of_none p' _ h
          | true => exact getSub_of_none p' _ h
        exact Link.noConfusion hu
      rw [leafPathsW_node chh f l r hab]
      cases b with
      | false =>
        exact List.mem_append.mpr (Or.inl (List.mem_map.mpr ⟨(p', w), ih l ch w h, rfl⟩))
      | true =>
        exact List.mem_append.mpr (Or.inr (List.mem_map.mpr ⟨(p', w), ih r ch w h, rfl⟩))

theorem leafPathsW_nodup_fst (t : Link) :
    ((leafPathsW t).map Prod.fst).Nodup := by
  induction t with
  | none => simp [leafPathsW]
  | node ch f left right ihl ihr =>
    by_cases hab : left = Link.none ∧ right = Link.none
    · obtain ⟨rfl, rfl⟩ := hab
      simp [leafPathsW]
    · rw [leafPathsW_node ch f left right hab, List.map_append, List.map_map,
        List.map_map,
        show (Prod.fst ∘ fun e : List Bool × Int => (false :: e.1, e.2)) =
          (fun p : List Bool => false :: p) ∘ Prod.fst from rfl,
        show (Prod.fst ∘ fun e : List Bool × Int => (true :: e.1, e.2)) =
          (fun p : List Bool => true :: p) ∘ Prod.fst from rfl,
        ← List.map_map, ← List.map_map]
      refine List.nodup_append.mpr ⟨?_, ?_, ?_⟩
      · exact ihl.map (fun x y hxy => by simpa using hxy)
      · exact ihr.map (fun x y hxy => by simpa using hxy)
      · intro x hx1 hx2
        obtain ⟨x1, _, rfl⟩ := List.mem_map.mp hx1
        obtain ⟨x2, _, hx2e⟩ := List.mem_map.mp hx2
        simp at hx2e

theorem nodup_fst_inj {α β : Type} [DecidableEq α] (L : List (α × β)) (k : α)
    (a b : β) (hnd : (L.map Prod.fst).Nodup) (ha : (k, a) ∈ L)
    (hb : (k, b) ∈ L) : a = b := by
  induction L with
  | nil => simp at ha
  | cons hd tl ih =>
    obtain ⟨k', v'⟩ := hd
    simp only [List.map_cons, List.nodup_cons] at hnd
    rcases List.mem_cons.mp ha with ha1 | ha1 <;>
      rcases List.mem_cons.mp hb with hb1 | hb1
    · exact (congrArg Prod.snd ha1).trans (congrArg Prod.snd hb1).symm
    · exfalso
      have hk : k' = k := (congrArg Prod.fst ha1).symm
      exact hnd.1 (hk ▸ (List.mem_map.mpr ⟨(k, b), hb1, rfl⟩))
    · exfalso
      have hk : k' = k := (congrArg Prod.fst hb1).symm
      exact hnd.1 (hk ▸ (List.mem_map.mpr ⟨(k, a), ha1, rfl⟩))
    · exact ih hnd.2 ha1 hb1

theorem exists_max_by {α : Type} (f : α → Nat) : ∀ l : List α, l ≠ [] →
    ∃ a ∈ l, ∀ b ∈ l, f b ≤ f a := by
  intro l
  induction l with
  | nil => intro h; exact absurd rfl h
  | cons x xs ih =>
    intro _
    cases xs with
    | nil =>
      refine ⟨x, by simp, ?_⟩
      intro b hb
      have hbx : b = x := by simpa using hb
      rw [hbx]
    | cons y ys =>
      obtain ⟨a, ha, hmax⟩ := ih (by simp)
      by_cases hxa : f x ≤ f a
      · refine ⟨a, List.mem_cons_of_mem x ha, ?_⟩
        intro b hb
        rcases List.mem_cons.mp hb with rfl | hb1
        · exact hxa
        · exact hmax b hb1
      · refine ⟨x, List.mem_cons_self x (y :: ys), ?_⟩
        intro b hb
        rcases List.mem_cons.mp hb with rfl | hb1
        · exact le_refl _
        · exact le_trans (hmax b hb1) (le_of_not_le hxa)

theorem leafWeights_ne_nil : ∀ t : Link, structuralInv t → t ≠ Link.none →
    leafWeights t ≠ [] := by
  intro t
  induction t with
  | none => intro _ h; exact absurd rfl h
  | node ch f left right ihl ihr =>
    intro hinv _
    by_cases hab : left = Link.none ∧ right = Link.none
    · obtain ⟨rfl, rfl⟩ := hab
      simp [leafWeights]
    · rw [leafWeights_parent ch f left right hab]
      have hlne : left ≠ Link.none := by
        rcases hinv.1 with ⟨h1, h2, _⟩ | ⟨h1, _, _⟩
        · exact absurd ⟨h1, h2⟩ hab
        · exact h1
      have hl := ihl hinv.2.1 hlne
      simp only [ne_eq, List.append_eq_nil]
      rintro ⟨h1, _⟩
      exact hl h1

theorem getSub_setSub_self (p : List Bool) : ∀ t u s : Link,
    getSub t p = Option.some u →
    getSub (setSub t p s) p = Option.some s := by
  induction p with
  | nil =>
    intro t u s _
    rw [show setSub t [] s = s from by simp [setSub]]
    cases s <;> rfl
  | cons b p' ih =>
    intro t u s h
    cases t with
    | none => simp [getSub] at h
    | node ch f l r =>
      cases b with
      | false =>
        show getSub (Link.node ch f (setSub l p' s) r) (false :: p') = Option.some s
        exact ih l u s h
      | true =>
        show getSub (Link.node ch f l (setSub r p' s)) (true :: p') = Option.some s
        exact ih r u s h

theorem swap_leaves (s : Link) (p q : List Bool) (cp cq : Option Char)
    (wp wq : Int) (hs : structuralInv s)
    (hp : getSub s p = Option.some (Link.node cp wp Link.none Link.none))
    (hq : getSub s q = Option.some (Link.node cq wq Link.none Link.none))
    (hne : p ≠ q) :
    ∃ s2, structuralInv s2 ∧
      List.Perm (leafWeights s2) (leafWeights s) ∧
      cost s2 = cost s + (wp - wq) * ((q.length : Int) - (p.length : Int)) ∧
      getSub s2 p = Option.some (Link.node cq wq Link.none Link.none) ∧
      getSub s2 q = Option.some (Link.node cp wp Link.none Link.none) ∧
      (∀ (x : List Bool) (cx : Option Char) (wx : Int), x ≠ p → x ≠ q →
        getSub s x = Option.some (Link.node cx wx Link.none Link.none) →
        getSub s2 x = getSub s x) := by
  obtain ⟨r0, bp, bq, p1, q1, hpe, hqe, hbneq⟩ :=
    leaf_paths_diverge p q s cp cq wp wq hp hq hne
  have hLPinv : structuralInv (Link.node cp wp Link.none Link.none) :=
    structuralInv_getSub p s _ hs hp
  have hLQinv : structuralInv (Link.node cq wq Link.none Link.none) :=
    structuralInv_getSub q s _ hs hq
  have hLPne : Link.node cp wp Link.none Link.none ≠ Link.none :=
    fun h0 => Link.noConfusion h0
  have hLQne : Link.node cq wq Link.none Link.none ≠ Link.none :=
    fun h0 => Link.noConfusion h0
  have hs1 : structuralInv (setSub s p (Link.node cq wq Link.none Link.none)) :=
    structuralInv_setSub p s _ _ hp hLPne hLQne hs hLQinv
  have hq1 : getSub (setSub s p (Link.node cq wq Link.none Link.none)) q =
      Option.some (Link.node cq wq Link.none Link.none) := by
    rw [hpe, hqe]
    rw [getSub_setSub_of_diverge r0 s _ bp bq p1 q1 hbneq]
    rw [← hqe]
    exact hq
  have hp1 : getSub (setSub s p (Link.node cq wq Link.none Link.none)) p =
      Option.some (Link.node cq wq Link.none Link.none) :=
    getSub_setSub_self p s _ _ hp
  refine ⟨setSub (setSub s p (Link.node cq wq Link.none Link.none)) q
    (Link.node cp wp Link.none Link.none), ?_, ?_, ?_, ?_, ?_, ?_⟩
  · exact structuralInv_setSub q _ _ _ hq1 hLQne hLPne hs1 hLPinv
  · have h1 := leafWeights_setSub p s _ _ hp hLPne hLQne
    have h2 := leafWeights_setSub q _ _ _ hq1 hLQne hLPne
    have h12 : List.Perm
        (leafWeights (setSub (setSub s p (Link.node cq wq Link.none Link.none)) q
          (Link.node cp wp Link.none Link.none)) ++ [wq])
        (leafWeights s ++ [wq]) := by
      have h1' : List.Perm
          (leafWeights (setSub s p (Link.node cq wq Link.none Link.none)) ++ [wp])
          (leafWeights s ++ [wq]) := h1
      have h2' : List.Perm
          (leafWeights (setSub (setSub s p (Link.node cq wq Link.none Link.none)) q
            (Link.node cp wp Link.none Link.none)) ++ [wq])
          (leafWeights (setSub s p (Link.node cq wq Link.none Link.none)) ++ [wp]) := h2
      exact h2'.trans h1'
    exact (List.perm_append_right_iff [wq]).mp h12
  · have h1 := cost_setSub p s _ _ hp hLPne hLQne
    have h2 := cost_setSub q _ _ _ hq1 hLQne hLPne
    rw [h2, h1]
    show cost s - (0 + wp * (p.length : Int)) + (0 + wq * (p.length : Int)) -
        (0 + wq * (q.length : Int)) + (0 + wp * (q.length : Int)) =
      cost s + (wp - wq) * ((q.length : Int) - (p.length : Int))
    ring
  · rw [hpe, hqe]
    rw [getSub_setSub_of_diverge r0 _ _ bq bp q1 p1 (Ne.symm hbneq)]
    rw [← hpe]
    exact hp1
  · exact getSub_setSub_self q _ _ _ hq1
  · intro x cx wx hxp hxq hx
    obtain ⟨r1, b1, b2, x1, q1', hxe, hqe2, hb12⟩ :=
      leaf_paths_diverge x q s cx cq wx wq hx hq hxq
    obtain ⟨r2, b3, b4, x2, p2, hxe2, hpe2, hb34⟩ :=
      leaf_paths_diverge x p s cx cp wx wp hx hp hxp
    have step2 : getSub (setSub (setSub s p (Link.node cq wq Link.none Link.none)) q
        (Link.node cp wp Link.none Link.none)) x =
        getSub (setSub s p (Link.node cq wq Link.none Link.none)) x := by
      rw [hxe, hqe2]
      exact getSub_setSub_of_diverge r1 _ _ b2 b1 q1' x1 (Ne.symm hb12)
    have step1 : getSub (setSub s p (Link.node cq wq Link.none Link.none)) x =
        getSub s x := by
      rw [hxe2, hpe2]
      exact getSub_setSub_of_diverge r2 _ _ b4 b3 p2 x2 (Ne.symm hb34)
    rw [step2, step1]

theorem getSub_nil (t : Link) : getSub t [] = Option.some t := by
  cases t <;> rfl

theorem deepest_sibling_pair (s : Link) (hs : structuralInv s)
    (h2 : 2 ≤ (leafWeights s).length) :
    ∃ r c1 v1 c2 v2,
      getSub s (r ++ [false]) = Option.some (Link.node c1 v1 Link.none Link.none) ∧
      getSub s (r ++ [true]) = Option.some (Link.node c2 v2 Link.none Link.none) ∧
      ∀ e ∈ leafPathsW s, e.1.length ≤ r.length + 1 := by
  have hLne : leafPathsW s ≠ [] := by
    intro h0
    rw [← leafPathsW_map_snd s, h0] at h2
    simp at h2
  obtain ⟨e0, he0mem, hmax⟩ :=
    exists_max_by (fun e : List Bool × Int => e.1.length) _ hLne
  obtain ⟨p0, u0⟩ := e0
  obtain ⟨ch0, hp0⟩ := leafPathsW_getSub s p0 u0 he0mem
  have hp0ne : p0 ≠ [] := by
    rintro rfl
    have hs0 : s = Link.node ch0 u0 Link.none Link.none := by
      simpa [getSub] using hp0
    rw [hs0] at h2
    simp [leafWeights] at h2
  obtain ⟨r, bb, rfl⟩ : ∃ r bb, p0 = r ++ [bb] :=
    ⟨p0.dropLast, p0.getLast hp0ne, (List.dropLast_append_getLast hp0ne).symm⟩
  have hp0b := hp0
  rw [getSub_append r [bb] s] at hp0
  cases hPr : getSub s r with
  | none =>
    rw [hPr] at hp0
    simp at hp0
  | some P =>
    rw [hPr] at hp0
    have hp0' : getSub P [bb] =
        Option.some (Link.node ch0 u0 Link.none Link.none) := hp0
    cases P with
    | none =>
      rw [show getSub Link.none [bb] = Option.none from rfl] at hp0'
      exact absurd hp0' (by simp)
    | node chp fp Pl Pr =>
      have hPinv : structuralInv (Link.node chp fp Pl Pr) :=
        structuralInv_getSub r s _ hs hPr
      have h3 : getSub (if bb then Pr else Pl) [] =
          Option.some (Link.node ch0 u0 Link.none Link.none) := hp0'
      rw [getSub_nil] at h3
      have hchild := Option.some.inj h3
      have hshape : Pl ≠ Link.none ∧ Pr ≠ Link.none ∧ chp = Option.none := by
        rcases hPinv.1 with ⟨hl0, hr0, _⟩ | hsh
        · exfalso
          cases bb with
          | false => rw [hl0] at hchild; exact Link.noConfusion hchild
          | true => rw [hr0] at hchild; exact Link.noConfusion hchild
        · exact hsh
      obtain ⟨hPlne, hPrne, _⟩ := hshape
      have hsibinv : structuralInv (if bb then Pl else Pr) := by
        cases bb with
        | false => exact hPinv.2.2
        | true => exact hPinv.2.1
      have hsibne : (if bb then Pl else Pr) ≠ Link.none := by
        cases bb with
        | false => exact hPrne
        | true => exact hPlne
      have hsiblw := leafWeights_ne_nil _ hsibinv hsibne
      have hsibpw : leafPathsW (if bb then Pl else Pr) ≠ [] := by
        intro h0
        rw [← leafPathsW_map_snd, h0] at hsiblw
        exact hsiblw rfl
      obtain ⟨⟨q, wq⟩, hqmem⟩ := List.exists_mem_of_ne_nil _ hsibpw
      obtain ⟨chq, hq⟩ := leafPathsW_getSub _ q wq hqmem
      have hfull : getSub s (r ++ (!bb) :: q) =
          Option.some (Link.node chq wq Link.none Link.none) := by
        rw [getSub_append r ((!bb) :: q) s, hPr]
        show getSub (Link.node chp fp Pl Pr) ((!bb) :: q) = _
        show getSub (if (!bb) then Pr else Pl) q = _
        cases bb with
        | false => exact hq
        | true => exact hq
      have hfullmem := getSub_leafPathsW (r ++ (!bb) :: q) s chq wq hfull
      have hqlen : q = [] := by
        have hle := hmax (r ++ (!bb) :: q, wq) hfullmem
        simp only [List.length_append, List.length_cons, List.length_singleton,
          List.length_nil] at hle
        have h0 : q.length = 0 := by omega
        exact List.eq_nil_of_length_eq_zero h0
      subst hqlen
      have hbound : ∀ e ∈ leafPathsW s, e.1.length ≤ r.length + 1 := by
        intro e he
        have hle := hmax e he
        simpa using hle
      cases bb with
      | false => exact ⟨r, ch0, u0, chq, wq, hp0b, hfull, hbound⟩
      | true => exact ⟨r, chq, wq, ch0, u0, hfull, hp0b, hbound⟩

theorem huffman_surgery (s : Link) (W : List Int) (w1 w2 : Int)
    (hs : structuralInv s)
    (hperm : List.Perm (leafWeights s) (W ++ [w1, w2]))
    (h21 : w2 ≤ w1) (hW1 : ∀ z ∈ W, w1 ≤ z) :
    ∃ s3, structuralInv s3 ∧ s3 ≠ Link.none ∧
      List.Perm (leafWeights s3) (W ++ [w1 + w2]) ∧
      cost s3 + w1 + w2 ≤ cost s := by
  have h2len : 2 ≤ (leafWeights s).length := by
    rw [hperm.length_eq]
    simp
  obtain ⟨r, c1, v1, c2, v2, hpL, hpR, hdepth⟩ := deepest_sibling_pair s hs h2len
  have hmemL : ((r ++ [false], v1)) ∈ leafPathsW s :=
    getSub_leafPathsW _ s c1 v1 hpL
  have hmemR : ((r ++ [true], v2)) ∈ leafPathsW s :=
    getSub_leafPathsW _ s c2 v2 hpR
  have hsnd : List.Perm ((leafPathsW s).map Prod.snd) (W ++ [w1, w2]) := by
    rw [leafPathsW_map_snd]
    exact hperm
  have hndf : ((leafPathsW s).map Prod.fst).Nodup := leafPathsW_nodup_fst s
  have hval2 : ∀ (x : List Bool) (v : Int), (x, v) ∈ leafPathsW s → w2 ≤ v := by
    intro x v hxv
    have hv : v ∈ W ++ [w1, w2] := hsnd.subset (List.mem_map_of_mem Prod.snd hxv)
    rcases List.mem_append.mp hv with h | h
    · exact le_trans h21 (hW1 v h)
    · rcases List.mem_cons.mp h with rfl | h
      · exact h21
      · have hv2' : v = w2 := by simpa using h
        rw [hv2']
  have hw2mem : w2 ∈ (leafPathsW s).map Prod.snd := hsnd.mem_iff.mpr (by simp)
  obtain ⟨⟨pa, w2x⟩, hamem, hw2x⟩ := List.mem_map.mp hw2mem
  have hw2e : w2 = w2x := hw2x.symm
  subst hw2e
  obtain ⟨L1, hL1⟩ : ∃ L1, List.Perm (leafPathsW s) ((pa, w2) :: L1) :=
    ⟨_, List.perm_cons_erase hamem⟩
  have hL1snd : List.Perm (L1.map Prod.snd) (W ++ [w1]) := by
    have hmapped : List.Perm ((leafPathsW s).map Prod.snd)
        (w2 :: L1.map Prod.snd) := by
      simpa using hL1.map Prod.snd
    have hshift : List.Perm (W ++ [w1, w2]) (w2 :: (W ++ [w1])) := by
      have h5 : W ++ [w1, w2] = (W ++ [w1]) ++ [w2] := by simp
      rw [h5]
      exact List.perm_append_comm
    exact ((hmapped.symm.trans hsnd).trans hshift).cons_inv
  have hmemL1 : ∀ (x : List Bool) (v : Int), (x, v) ∈ leafPathsW s → x ≠ pa →
      (x, v) ∈ L1 := by
    intro x v hxv hxa
    have hx2 : (x, v) ∈ (pa, w2) :: L1 := hL1.subset hxv
    rcases List.mem_cons.mp hx2 with heq | hmem
    · exact absurd (congrArg Prod.fst heq) hxa
    · exact hmem
  have hval1 : ∀ (x : List Bool) (v : Int), (x, v) ∈ leafPathsW s → x ≠ pa →
      w1 ≤ v := by
    intro x v hxv hxa
    have hv : v ∈ W ++ [w1] :=
      hL1snd.subset (List.mem_map_of_mem Prod.snd (hmemL1 x v hxv hxa))
    rcases List.mem_append.mp hv with h | h
    · exact hW1 v h
    · have hv1' : v = w1 := by simpa using h
      rw [hv1']
  have hw1mem : w1 ∈ L1.map Prod.snd := hL1snd.mem_iff.mpr (by simp)
  obtain ⟨⟨pb, w1x⟩, hbmem1, hw1x⟩ := List.mem_map.mp hw1mem
  have hw1e : w1 = w1x := hw1x.symm
  subst hw1e
  have hbmem : (pb, w1) ∈ leafPathsW s :=
    hL1.symm.subset (List.mem_cons_of_mem _ hbmem1)
  have hndL : (leafPathsW s).Nodup := List.Nodup.of_map Prod.fst hndf
  have hba : pb ≠ pa := by
    intro h0
    have hw12 : w1 = w2 :=
      nodup_fst_inj (leafPathsW s) pa w1 w2 hndf (h0 ▸ hbmem) hamem
    have hndc : ((pa, w2) :: L1).Nodup := hL1.nodup_iff.mp hndL
    have hnmem : (pa, w2) ∉ L1 := (List.nodup_cons.mp hndc).1
    rw [h0, hw12] at hbmem1
    exact hnmem hbmem1
  obtain ⟨s2, α, β, cα, cβ, hs2, hlw2, hcost2, hab2, hL2, hR2⟩ :
      ∃ s2 α β cα cβ, structuralInv s2 ∧
        List.Perm (leafWeights s2) (leafWeights s) ∧ cost s2 ≤ cost s ∧
        List.Perm [α, β] [w1, w2] ∧
        getSub s2 (r ++ [false]) =
          Option.some (Link.node cα α Link.none Link.none) ∧
        getSub s2 (r ++ [true]) =
          Option.some (Link.node cβ β Link.none Link.none) := by
    by_cases hapL : pa = r ++ [false]
    · by_cases hbpR : pb = r ++ [true]
      · -- both minima already sit at the deepest sibling pair
        have hv1 : v1 = w2 :=
          nodup_fst_inj (leafPathsW s) (r ++ [false]) v1 w2 hndf hmemL
            (hapL ▸ hamem)
        have hv2 : v2 = w1 :=
          nodup_fst_inj (leafPathsW s) (r ++ [true]) v2 w1 hndf hmemR
            (hbpR ▸ hbmem)
        refine ⟨s, v1, v2, c1, c2, hs, List.Perm.refl _, le_refl _, ?_, hpL, hpR⟩
        rw [hv1, hv2]
        exact List.Perm.swap w1 w2 []
      · -- w2 already at the left slot; swap the w1 leaf into the right slot
        have hbpL : pb ≠ r ++ [false] := by
          rw [← hapL]
          exact hba
        have hv1 : v1 = w2 :=
          nodup_fst_inj (leafPathsW s) (r ++ [false]) v1 w2 hndf hmemL
            (hapL ▸ hamem)
        obtain ⟨cb, hpb⟩ := leafPathsW_getSub s pb w1 hbmem
        obtain ⟨s2, hs2, hlw2, hceq, _, hgq, hthird⟩ :=
          swap_leaves s pb (r ++ [true]) cb c2 w1 v2 hs hpb hpR hbpR
        have hgL : getSub s2 (r ++ [false]) =
            Option.some (Link.node c1 v1 Link.none Link.none) := by
          rw [hthird (r ++ [false]) c1 v1 (Ne.symm hbpL) (by simp) hpL]
          exact hpL
        have hw1v2 : w1 ≤ v2 := by
          refine hval1 (r ++ [true]) v2 hmemR ?_
          rw [hapL]
          simp
        have hlen : pb.length ≤ r.length + 1 := hdepth (pb, w1) hbmem
        have hc : cost s2 ≤ cost s := by
          rw [hceq]
          have h1 : w1 - v2 ≤ 0 := by linarith
          have h2 : (0 : Int) ≤ (((r ++ [true]).length : Int) -
              (pb.length : Int)) := by
            have h4 : pb.length ≤ (r ++ [true]).length := by simpa using hlen
            have h3 : (pb.length : Int) ≤ ((r ++ [true]).length : Int) := by
              exact_mod_cast h4
            linarith
          have h5 := mul_nonpos_of_nonpos_of_nonneg h1 h2
          linarith
        refine ⟨s2, v1, w1, c1, cb, hs2, hlw2, hc, ?_, hgL, hgq⟩
        rw [hv1]
        exact List.Perm.swap w1 w2 []
    · by_cases hapR : pa = r ++ [true]
      · by_cases hbpL : pb = r ++ [false]
        · -- w1 at the left slot, w2 at the right slot: nothing to do
          have hv2 : v2 = w2 :=
            nodup_fst_inj (leafPathsW s) (r ++ [true]) v2 w2 hndf hmemR
              (hapR ▸ hamem)
          have hv1 : v1 = w1 :=
            nodup_fst_inj (leafPathsW s) (r ++ [false]) v1 w1 hndf hmemL
              (hbpL ▸ hbmem)
          refine ⟨s, v1, v2, c1, c2, hs, List.Perm.refl _, le_refl _, ?_,
            hpL, hpR⟩
          rw [hv1, hv2]
        · -- w2 at the right slot; swap the w1 leaf into the left slot
          have hbpR : pb ≠ r ++ [true] := by
            rw [← hapR]
            exact hba
          have hv2 : v2 = w2 :=
            nodup_fst_inj (leafPathsW s) (r ++ [true]) v2 w2 hndf hmemR
              (hapR ▸ hamem)
          obtain ⟨cb, hpb⟩ := leafPathsW_getSub s pb w1 hbmem
          obtain ⟨s2, hs2, hlw2, hceq, _, hgL, hthird⟩ :=
            swap_leaves s pb (r ++ [false]) cb c1 w1 v1 hs hpb hpL hbpL
          have hgR : getSub s2 (r ++ [true]) =
              Option.some (Link.node c2 v2 Link.none Link.none) := by
            rw [hthird (r ++ [true]) c2 v2 (Ne.symm hbpR) (by simp) hpR]
            exact hpR
          have hw1v1 : w1 ≤ v1 := by
            refine hval1 (r ++ [false]) v1 hmemL ?_
            rw [hapR]
            simp
          have hlen : pb.length ≤ r.length + 1 := hdepth (pb, w1) hbmem
          have hc : cost s2 ≤ cost s := by
            rw [hceq]
            have h1 : w1 - v1 ≤ 0 := by linarith
            have h2 : (0 : Int) ≤ (((r ++ [false]).length : Int) -
                (pb.length : Int)) := by
              have h4 : pb.length ≤ (r ++ [false]).length := by simpa using hlen
              have h3 : (pb.length : Int) ≤ ((r ++ [false]).length : Int) := by
                exact_mod_cast h4
              linarith
            have h5 := mul_nonpos_of_nonpos_of_nonneg h1 h2
            linarith
          refine ⟨s2, w1, v2, cb, c2, hs2, hlw2, hc, ?_, hgL, hgR⟩
          rw [hv2]
      · by_cases hbpL : pb = r ++ [false]
        · -- w1 at the left slot; swap the w2 leaf into the right slot
          have hv1 : v1 = w1 :=
            nodup_fst_inj (leafPathsW s) (r ++ [false]) v1 w1 hndf hmemL
              (hbpL ▸ hbmem)
          obtain ⟨ca, hpa⟩ := leafPathsW_getSub s pa w2 hamem
          obtain ⟨s2, hs2, hlw2, hceq, _, hgR, hthird⟩ :=
            swap_leaves s pa (r ++ [true]) ca c2 w2 v2 hs hpa hpR hapR
          have hgL : getSub s2 (r ++ [false]) =
              Option.some (Link.node c1 v1 Link.none Link.none) := by
            rw [hthird (r ++ [false]) c1 v1 (fun h => hapL h.symm) (by simp) hpL]
            exact hpL
          have hw2v2 : w2 ≤ v2 := hval2 (r ++ [true]) v2 hmemR
          have hlen : pa.length ≤ r.length + 1 := hdepth (pa, w2) hamem
          have hc : cost s2 ≤ cost s := by
            rw [hceq]
            have h1 : w2 - v2 ≤ 0 := by linarith
            have h2 : (0 : Int) ≤ (((r ++ [true]).length : Int) -
                (pa.length : Int)) := by
              have h4 : pa.length ≤ (r ++ [true]).length := by simpa using hlen
              have h3 : (pa.length : Int) ≤ ((r ++ [true]).length : Int) := by
                exact_mod_cast h4
              linarith
            have h5 := mul_nonpos_of_nonpos_of_nonneg h1 h2
            linarith
          refine ⟨s2, v1, w2, c1, ca, hs2, hlw2, hc, ?_, hgL, hgR⟩
          rw [hv1]
        · by_cases hbpR : pb = r ++ [true]
          · -- w1 at the right slot; swap the w2 leaf into the left slot
            have hv2 : v2 = w1 :=
              nodup_fst_inj (leafPathsW s) (r ++ [true]) v2 w1 hndf hmemR
                (hbpR ▸ hbmem)
            obtain ⟨ca, hpa⟩ := leafPathsW_getSub s pa w2 hamem
            obtain ⟨s2, hs2, hlw2, hceq, _, hgL, hthird⟩ :=
              swap_leaves s pa (r ++ [false]) ca c1 w2 v1 hs hpa hpL hapL
            have hgR : getSub s2 (r ++ [true]) =
                Option.some (Link.node c2 v2 Link.none Link.none) := by
              rw [hthird (r ++ [true]) c2 v2 (fun h => hapR h.symm) (by simp) hpR]
              exact hpR
            have hw2v1 : w2 ≤ v1 := hval2 (r ++ [false]) v1 hmemL
            have hlen : pa.length ≤ r.length + 1 := hdepth (pa, w2) hamem
            have hc : cost s2 ≤ cost s := by
              rw [hceq]
              have h1 : w2 - v1 ≤ 0 := by linarith
              have h2 : (0 : Int) ≤ (((r ++ [false]).length : Int) -
                  (pa.length : Int)) := by
                have h4 : pa.length ≤ (r ++ [false]).length := by simpa using hlen
                have h3 : (pa.length : Int) ≤ ((r ++ [false]).length : Int) := by
                  exact_mod_cast h4
                linarith
              have h5 := mul_nonpos_of_nonpos_of_nonneg h1 h2
              linarith
            refine ⟨s2, w2, v2, ca, c2, hs2, hlw2, hc, ?_, hgL, hgR⟩
            rw [hv2]
            exact List.Perm.swap w1 w2 []
          · -- general position: two swaps
            obtain ⟨ca, hpa⟩ := leafPathsW_getSub s pa w2 hamem
            obtain ⟨cb, hpb⟩ := leafPathsW_getSub s pb w1 hbmem
            obtain ⟨s1, hs1, hlw1, hceq1, _, hgL1, hthird1⟩ :=
              swap_leaves s pa (r ++ [false]) ca c1 w2 v1 hs hpa hpL hapL
            have hpb1 : getSub s1 pb =
                Option.some (Link.node cb w1 Link.none Link.none) := by
              rw [hthird1 pb cb w1 hba hbpL hpb]
              exact hpb
            have hpR1 : getSub s1 (r ++ [true]) =
                Option.some (Link.node c2 v2 Link.none Link.none) := by
              rw [hthird1 (r ++ [true]) c2 v2 (fun h => hapR h.symm) (by simp) hpR]
              exact hpR
            obtain ⟨s2, hs2, hlw2, hceq2, _, hgR2, hthird2⟩ :=
              swap_leaves s1 pb (r ++ [true]) cb c2 w1 v2 hs1 hpb1 hpR1 hbpR
            have hgL2 : getSub s2 (r ++ [false]) =
                Option.some (Link.node ca w2 Link.none Link.none) := by
              rw [hthird2 (r ++ [false]) ca w2 (fun h => hbpL h.symm) (by simp)
                hgL1]
              exact hgL1
            have hw2v1 : w2 ≤ v1 := hval2 (r ++ [false]) v1 hmemL
            have hw1v2 : w1 ≤ v2 := by
              refine hval1 (r ++ [true]) v2 hmemR (fun h => hapR h.symm)
            have hlena : pa.length ≤ r.length + 1 := hdepth (pa, w2) hamem
            have hlenb : pb.length ≤ r.length + 1 := hdepth (pb, w1) hbmem
            have hc1 : cost s1 ≤ cost s := by
              rw [hceq1]
              have h1 : w2 - v1 ≤ 0 := by linarith
              have h2 : (0 : Int) ≤ (((r ++ [false]).length : Int) -
                  (pa.length : Int)) := by
                have h4 : pa.length ≤ (r ++ [false]).length := by simpa using hlena
                have h3 : (pa.length : Int) ≤ ((r ++ [false]).length : Int) := by
                  exact_mod_cast h4
                linarith
              have h5 := mul_nonpos_of_nonpos_of_nonneg h1 h2
              linarith
            have hc2 : cost s2 ≤ cost s1 := by
              rw [hceq2]
              have h1 : w1 - v2 ≤ 0 := by linarith
              have h2 : (0 : Int) ≤ (((r ++ [true]).length : Int) -
                  (pb.length : Int)) := by
                have h4 : pb.length ≤ (r ++ [true]).length := by simpa using hlenb
                have h3 : (pb.length : Int) ≤ ((r ++ [true]).length : Int) := by
                  exact_mod_cast h4
                linarith
              have h5 := mul_nonpos_of_nonpos_of_nonneg h1 h2
              linarith
            exact ⟨s2, w2, w1, ca, cb, hs2, hlw2.trans hlw1,
              le_trans hc2 hc1, List.Perm.swap w1 w2 [], hgL2, hgR2⟩
  -- collapse the deepest sibling pair, which now carries the weights w1, w2
  rw [getSub_append r [false] s2] at hL2
  rw [getSub_append r [true] s2] at hR2
  cases hP : getSub s2 r with
  | none =>
    rw [hP] at hL2
    simp at hL2
  | some P =>
    rw [hP] at hL2 hR2
    have hL2' : getSub P [false] =
        Option.some (Link.node cα α Link.none Link.none) := hL2
    have hR2' : getSub P [true] =
        Option.some (Link.node cβ β Link.none Link.none) := hR2
    cases P with
    | none =>
      rw [show getSub Link.none [false] = Option.none from rfl] at hL2'
      exact absurd hL2' (by simp)
    | node chp fp Pl Pr =>
      have h4 : getSub (if false then Pr else Pl) [] =
          Option.some (Link.node cα α Link.none Link.none) := hL2'
      rw [getSub_nil] at h4
      have hPl : Pl = Link.node cα α Link.none Link.none := Option.some.inj h4
      have h6 : getSub (if true then Pr else Pl) [] =
          Option.some (Link.node cβ β Link.none Link.none) := hR2'
      rw [getSub_nil] at h6
      have hPr : Pr = Link.node cβ β Link.none Link.none := Option.some.inj h6
      subst hPl
      subst hPr
      have hPne : Link.node chp fp (Link.node cα α Link.none Link.none)
          (Link.node cβ β Link.none Link.none) ≠ Link.none :=
        fun h0 => Link.noConfusion h0
      have hnewne : Link.node (Option.some 'a') (w1 + w2) Link.none Link.none ≠
          Link.none := fun h0 => Link.noConfusion h0
      have hnewinv : structuralInv
          (Link.node (Option.some 'a') (w1 + w2) Link.none Link.none) :=
        ⟨Or.inl ⟨rfl, rfl, rfl⟩, trivial, trivial⟩
      have hnotboth : ¬(Link.node cα α Link.none Link.none = Link.none ∧
          Link.node cβ β Link.none Link.none = Link.none) := by
        rintro ⟨h0, _⟩
        exact Link.noConfusion h0
      have hαβsum : α + β = w1 + w2 := by
        have hse := hab2.sum_eq
        simpa using hse
      refine ⟨setSub s2 r (Link.node (Option.some 'a') (w1 + w2) Link.none
        Link.none), ?_, ?_, ?_, ?_⟩
      · exact structuralInv_setSub r s2 _ _ hP hPne hnewne hs2 hnewinv
      · refine setSub_ne_none r s2 _ ?_ hnewne
        exact getSub_root_ne_none r s2 _ hP hPne
      · have hlwset := leafWeights_setSub r s2 _ _ hP hPne hnewne
        have hlwP : leafWeights (Link.node chp fp
            (Link.node cα α Link.none Link.none)
            (Link.node cβ β Link.none Link.none)) = [α, β] := by
          rw [leafWeights_parent chp fp _ _ hnotboth]
          rfl
        rw [hlwP] at hlwset
        have hc1 : List.Perm (leafWeights (setSub s2 r (Link.node
            (Option.some 'a') (w1 + w2) Link.none Link.none)) ++ [w1, w2])
            (leafWeights (setSub s2 r (Link.node (Option.some 'a') (w1 + w2)
              Link.none Link.none)) ++ [α, β]) :=
          List.Perm.append_left _ hab2.symm
        have hc3 : List.Perm (leafWeights s2 ++ [w1 + w2])
            ((W ++ [w1, w2]) ++ [w1 + w2]) :=
          (hlw2.trans hperm).append_right [w1 + w2]
        have hc4 : List.Perm ((W ++ [w1, w2]) ++ [w1 + w2])
            ((W ++ [w1 + w2]) ++ [w1, w2]) := by
          rw [List.append_assoc, List.append_assoc]
          exact List.Perm.append_left W List.perm_append_comm
        have hchain := ((hc1.trans hlwset).trans hc3).trans hc4
        exact (List.perm_append_right_iff [w1, w2]).mp hchain
      · have hcs3 := cost_setSub r s2 _ _ hP hPne hnewne
        have hcostP : cost (Link.node chp fp
            (Link.node cα α Link.none Link.none)
            (Link.node cβ β Link.none Link.none)) = α + β := by
          rw [cost_node chp fp _ _ hnotboth,
            show cost (Link.node cα α Link.none Link.none) = 0 from rfl,
            show cost (Link.node cβ β Link.none Link.none) = 0 from rfl,
            show sumLeafWeights (Link.node cα α Link.none Link.none) = α from rfl,
            show sumLeafWeights (Link.node cβ β Link.none Link.none) = β from rfl]
          ring
        have hsLWP : sumLeafWeights (Link.node chp fp
            (Link.node cα α Link.none Link.none)
            (Link.node cβ β Link.none Link.none)) = α + β := by
          rw [sumLeafWeights_node chp fp _ _ hnotboth,
            show sumLeafWeights (Link.node cα α Link.none Link.none) = α from rfl,
            show sumLeafWeights (Link.node cβ β Link.none Link.none) = β from rfl]
        rw [hcs3, hcostP, hsLWP,
          show cost (Link.node (Option.some 'a') (w1 + w2) Link.none
            Link.none) = 0 from rfl,
          show sumLeafWeights (Link.node (Option.some 'a') (w1 + w2) Link.none
            Link.none) = w1 + w2 from rfl, hαβsum]
        linarith

theorem mergeLoop_opt : ∀ (fuel : Nat) (l : List Link),
    SortedDesc l →
    (∀ x ∈ l, x ≠ Link.none ∧ Link.freq x = sumLeafWeights x ∧
      0 ≤ Link.freq x) →
    ∀ t, mergeLoop fuel l = [t] →
    ∀ s, structuralInv s →
      List.Perm (leafWeights s) (l.map Link.freq) →
      cost t ≤ (l.map cost).sum + cost s := by
  intro fuel
  induction fuel with
  | zero =>
    intro l _ hall t hml s _ hperm
    have hl : l = [t] := hml
    subst hl
    simp only [List.map_cons, List.map_nil, List.sum_cons, List.sum_nil,
      add_zero]
    have h0 : 0 ≤ cost s := by
      refine cost_nonneg s ?_
      intro w hw
      have hw2 : w ∈ [Link.freq t] := hperm.subset hw
      have hwt : w = Link.freq t := by simpa using hw2
      rw [hwt]
      exact (hall t (by simp)).2.2
    linarith
  | succ fuel ih =>
    intro l hsort hall t hml s hsinv hperm
    by_cases hlen : 1 < l.length
    · obtain ⟨A, x, y, hdec, hstep⟩ := mergeLoop_step fuel l hlen
      subst hdec
      rw [hstep] at hml
      obtain ⟨hxne, hxw, hx0⟩ := hall x (by simp)
      obtain ⟨hyne, hyw, hy0⟩ := hall y (by simp)
      obtain ⟨hyx, hAxy⟩ := sortedDesc_extract A x y hsort
      have hnotboth : ¬(x = Link.none ∧ y = Link.none) := by
        rintro ⟨h0, _⟩
        exact hxne h0
      have hall' : ∀ u ∈ sortByFreqDesc (A ++
          [Link.node Option.none (Link.freq x + Link.freq y) x y]),
          u ≠ Link.none ∧ Link.freq u = sumLeafWeights u ∧ 0 ≤ Link.freq u := by
        intro u hu
        have hu' : u ∈ A ++ [Link.node Option.none (Link.freq x + Link.freq y)
            x y] := (sortByFreqDesc_perm _).subset hu
        rcases List.mem_append.mp hu' with h | h
        · exact hall u (by simp [List.mem_append.mpr (Or.inl h)])
        · have hue : u = Link.node Option.none (Link.freq x + Link.freq y) x y :=
            by simpa using h
          subst hue
          refine ⟨fun h0 => Link.noConfusion h0, ?_, ?_⟩
          · show Link.freq x + Link.freq y = _
            rw [sumLeafWeights_node Option.none _ x y hnotboth, hxw, hyw]
          · show 0 ≤ Link.freq x + Link.freq y
            linarith
      obtain ⟨s', hs'inv, _, hs'perm, hs'cost⟩ :=
        huffman_surgery s (A.map Link.freq) (Link.freq x) (Link.freq y) hsinv
          (by simpa using hperm) hyx
          (by
            intro z hz
            obtain ⟨u, hu, rfl⟩ := List.mem_map.mp hz
            exact (hAxy u hu).1)
      have hs'perm' : List.Perm (leafWeights s')
          ((sortByFreqDesc (A ++ [Link.node Option.none
            (Link.freq x + Link.freq y) x y])).map Link.freq) := by
        have h1 : List.Perm ((sortByFreqDesc (A ++ [Link.node Option.none
            (Link.freq x + Link.freq y) x y])).map Link.freq)
            ((A ++ [Link.node Option.none (Link.freq x + Link.freq y)
              x y]).map Link.freq) := (sortByFreqDesc_perm _).map Link.freq
        refine hs'perm.trans (List.Perm.trans ?_ h1.symm)
        simp [Link.freq]
      have hIH := ih _ (sortByFreqDesc_sortedDesc _) hall' t hml s' hs'inv
        hs'perm'
      have hsum' : ((sortByFreqDesc (A ++ [Link.node Option.none
          (Link.freq x + Link.freq y) x y])).map cost).sum =
          (A.map cost).sum + (cost x + cost y +
            sumLeafWeights x + sumLeafWeights y) := by
        have h1 := ((sortByFreqDesc_perm (A ++ [Link.node Option.none
          (Link.freq x + Link.freq y) x y])).map cost).sum_eq
        rw [h1]
        rw [List.map_append, List.sum_append]
        rw [show ([Link.node Option.none (Link.freq x + Link.freq y)
          x y].map cost).sum = cost (Link.node Option.none
            (Link.freq x + Link.freq y) x y) from by simp]
        rw [cost_node Option.none _ x y hnotboth]
      have hsuml : (((A ++ [x, y]).map cost)).sum =
          (A.map cost).sum + cost x + cost y := by
        rw [List.map_append, List.sum_append]
        simp
        ring
      rw [hsuml]
      rw [hsum'] at hIH
      rw [← hxw, ← hyw] at hIH
      linarith
    · have hml2 : l = [t] := by
        rw [← mergeLoop_of_length_le_one (fuel + 1) l (Nat.not_lt.mp hlen)]
        exact hml
      subst hml2
      simp only [List.map_cons, List.map_nil, List.sum_cons, List.sum_nil,
        add_zero]
      have h0 : 0 ≤ cost s := by
        refine cost_nonneg s ?_
        intro w hw
        have hw2 : w ∈ [Link.freq t] := hperm.subset hw
        have hwt : w = Link.freq t := by simpa using hw2
        rw [hwt]
        exact (hall t (by simp)).2.2
      linarith

theorem leafEntries_getSub : ∀ (t : Link) (code : List Char) (c : Char)
    (sc : List Char), (c, sc) ∈ leafEntries t code →
    ∃ u f, sc = code ++ u ∧
      getSub t (u.map (fun ch => ch == '1')) =
        Option.some (Link.node (Option.some c) f Link.none Link.none) := by
  intro t
  induction t with
  | none => intro code c sc hm; simp [leafEntries] at hm
  | node ch f left right ihl ihr =>
    intro code c sc hm
    cases left with
    | none =>
      cases right with
      | none =>
        cases ch with
        | none => simp [leafEntries] at hm
        | some c0 =>
          have h1 : c = c0 ∧ sc = code := by simpa [leafEntries] using hm
          obtain ⟨rfl, rfl⟩ := h1
          exact ⟨[], f, by simp, rfl⟩
      | node ch2 f2 l2 r2 =>
        have hm' : (c, sc) ∈ leafEntries Link.none (code ++ ['0']) ++
            leafEntries (Link.node ch2 f2 l2 r2) (code ++ ['1']) := hm
        rcases List.mem_append.mp hm' with hmm | hmm
        · simp [leafEntries] at hmm
        · obtain ⟨u, fu, hsu, hget⟩ := ihr (code ++ ['1']) c sc hmm
          refine ⟨'1' :: u, fu, by rw [hsu]; simp, ?_⟩
          exact hget
    | node chl fl ll rl =>
      cases right with
      | none =>
        have hm' : (c, sc) ∈ leafEntries (Link.node chl fl ll rl)
            (code ++ ['0']) ++ leafEntries Link.none (code ++ ['1']) := hm
        rcases List.mem_append.mp hm' with hmm | hmm
        · obtain ⟨u, fu, hsu, hget⟩ := ihl (code ++ ['0']) c sc hmm
          refine ⟨'0' :: u, fu, by rw [hsu]; simp, ?_⟩
          exact hget
        · simp [leafEntries] at hmm
      | node chr fr lr rr =>
        have hm' : (c, sc) ∈ leafEntries (Link.node chl fl ll rl)
            (code ++ ['0']) ++
            leafEntries (Link.node chr fr lr rr) (code ++ ['1']) := hm
        rcases List.mem_append.mp hm' with hmm | hmm
        · obtain ⟨u, fu, hsu, hget⟩ := ihl (code ++ ['0']) c sc hmm
          refine ⟨'0' :: u, fu, by rw [hsu]; simp, ?_⟩
          exact hget
        · obtain ⟨u, fu, hsu, hget⟩ := ihr (code ++ ['1']) c sc hmm
          refine ⟨'1' :: u, fu, by rw [hsu]; simp, ?_⟩
          exact hget

theorem populate_tree_leafFreqOk (m : List (Char × Int)) :
    leafFreqOk m (populate_tree m) := by
  by_cases h : m = []
  · subst h
    rw [populate_tree_empty]
    trivial
  · have hrun := populate_tree_run m h
    have hall := mergeLoop_forall (fun x => x ≠ Link.none ∧ leafFreqOk m x)
      (fun a b ha hb => ⟨fun h0 => Link.noConfusion h0, by
        cases a with
        | none => exact absurd rfl ha.1
        | node cha fa la ra =>
          cases b with
          | none => exact absurd rfl hb.1
          | node chb fb lb rb => exact ⟨ha.2, hb.2⟩⟩)
      (sortByFreqDesc (m.map (fun kv => Node.new kv.1 kv.2))).length
      (sortByFreqDesc (m.map (fun kv => Node.new kv.1 kv.2)))
      ?_ (populate_tree m) (by rw [hrun]; simp)
    · exact hall.2
    · intro x hx
      have hx' := (sortByFreqDesc_perm _).subset hx
      obtain ⟨kv, hkv, rfl⟩ := List.mem_map.mp hx'
      refine ⟨fun h0 => Link.noConfusion h0, ?_⟩
      show ∃ c, Option.some kv.1 = Option.some c ∧ (c, kv.2) ∈ m
      exact ⟨kv.1, rfl, by rw [show (kv.1, kv.2) = kv from rfl]; exact hkv⟩

theorem find_input_freqs_val (input : List Char) (c : Char) (f : Int)
    (h : (c, f) ∈ find_input_freqs input) : f = (input.count c : Int) := by
  have hl := mapLookup_of_mem_nodup c f _ (find_input_freqs_nodup input) h
  rw [find_input_freqs_lookup] at hl
  by_cases h0 : input.count c = 0
  · rw [if_pos h0] at hl
    exact absurd hl (by simp)
  · rw [if_neg h0] at hl
    exact (Option.some.inj hl).symm

theorem flatten_map_leafWeights : ∀ l : List Link,
    (∀ x ∈ l, leafWeights x = [Link.freq x]) →
    (l.map leafWeights).flatten = l.map Link.freq := by
  intro l
  induction l with
  | nil => intro _; rfl
  | cons x xs ih =>
    intro h
    simp only [List.map_cons, List.flatten_cons]
    rw [h x (by simp), ih (fun y hy => h y (by simp [hy]))]
    rfl

theorem populate_tree_table (m : List (Char × Int)) (hm : m ≠ [])
    (hnd : (m.map Prod.fst).Nodup) :
    generate_huffman_map (populate_tree m) =
      Option.some (leafEntries (populate_tree m) []) ∧
    List.Perm (leafChars (populate_tree m)) (m.map Prod.fst) := by
  have hrun := populate_tree_run m hm
  have hmeas := (mergeLoop_measures (sortByFreqDesc (m.map
    (fun kv => Node.new kv.1 kv.2))).length (sortByFreqDesc (m.map
    (fun kv => Node.new kv.1 kv.2)))).2
  rw [hrun] at hmeas
  have hl : ([populate_tree m].map leafChars).flatten =
      leafChars (populate_tree m) := by simp
  rw [hl] at hmeas
  have hperm : List.Perm (leafChars (populate_tree m)) (m.map Prod.fst) := by
    refine hmeas.trans ?_
    refine (flatten_perm_of_perm ((sortByFreqDesc_perm _).map leafChars)).trans ?_
    rw [List.map_map]
    have hcomp : leafChars ∘ (fun kv : Char × Int => Node.new kv.1 kv.2) =
        fun kv : Char × Int => [kv.1] := by
      funext kv
      rfl
    rw [hcomp]
    have hflat : ∀ mm : List (Char × Int),
        (mm.map (fun kv : Char × Int => [kv.1])).flatten = mm.map Prod.fst := by
      intro mm
      induction mm with
      | nil => rfl
      | cons hd tl ih => simp [ih]
    rw [hflat]
  have hndchars : (leafChars (populate_tree m)).Nodup := hperm.nodup_iff.mpr hnd
  have htable := huffman_map_step_append (populate_tree m) [] []
    (populate_tree_inv m) hndchars (by simp)
  constructor
  · show huffman_map_step _ [] [] = _
    rw [htable]
    rfl
  · exact hperm

/-- C9: in the code table generated over the tree built from the input's
frequency map, a character with strictly higher frequency receives a code
string no longer than that of a character with strictly lower frequency
(optimality of the Huffman construction). -/
theorem code_length_ordering (input : List Char) (a b : Char)
    (table : List (Char × List Char)) (sa sb : List Char)
    (ha : a ∈ input) (hb : b ∈ input)
    (hcount : input.count b < input.count a)
    (htab : generate_huffman_map (populate_tree (find_input_freqs input)) =
      Option.some table)
    (hsa : mapLookup a table = Option.some sa)
    (hsb : mapLookup b table = Option.some sb) :
    sa.length ≤ sb.length := by
  by_contra hlen
  push_neg at hlen
  have hne : input ≠ [] := List.ne_nil_of_mem ha
  have hfne := find_input_freqs_ne_nil input hne
  have hnd := find_input_freqs_nodup input
  have hinv : structuralInv (populate_tree (find_input_freqs input)) :=
    populate_tree_inv _
  obtain ⟨htab2, _⟩ := populate_tree_table (find_input_freqs input) hfne hnd
  have htabeq : table = leafEntries (populate_tree (find_input_freqs input)) [] :=
    Option.some.inj (htab.symm.trans htab2)
  subst htabeq
  have hamem := mapLookup_mem a sa _ hsa
  have hbmem := mapLookup_mem b sb _ hsb
  obtain ⟨ua, fa', hsua, hgeta⟩ := leafEntries_getSub _ [] a sa hamem
  obtain ⟨ub, fb', hsub, hgetb⟩ := leafEntries_getSub _ [] b sb hbmem
  have hsua' : sa = ua := by simpa using hsua
  have hsub' : sb = ub := by simpa using hsub
  subst hsua'
  subst hsub'
  have hok := populate_tree_leafFreqOk (find_input_freqs input)
  have hoka := leafFreqOk_getSub (find_input_freqs input) _ _ _ hok hgeta
  have hokb := leafFreqOk_getSub (find_input_freqs input) _ _ _ hok hgetb
  obtain ⟨ca', hca', hmema⟩ := hoka
  obtain ⟨cb', hcb', hmemb⟩ := hokb
  have heqa : a = ca' := Option.some.inj hca'
  subst heqa
  have heqb : b = cb' := Option.some.inj hcb'
  subst heqb
  have hfa : fa' = (input.count a : Int) := find_input_freqs_val input a fa' hmema
  have hfb : fb' = (input.count b : Int) := find_input_freqs_val input b fb' hmemb
  have hpaths : sa.map (fun ch => ch == '1') ≠ sb.map (fun ch => ch == '1') := by
    intro h0
    rw [h0] at hgeta
    have h1 := Option.some.inj (hgeta.symm.trans hgetb)
    have h2 : a = b := by
      injection h1 with hch hf hleft hright
      exact Option.some.inj hch
    rw [h2] at hcount
    exact lt_irrefl _ hcount
  obtain ⟨s2, hs2inv, hs2lw, hs2cost, _, _, _⟩ :=
    swap_leaves (populate_tree (find_input_freqs input))
      (sa.map (fun ch => ch == '1')) (sb.map (fun ch => ch == '1'))
      (Option.some a) (Option.some b) fa' fb' hinv hgeta hgetb hpaths
  have hstrict : cost s2 < cost (populate_tree (find_input_freqs input)) := by
    rw [hs2cost]
    have h1 : 0 < fa' - fb' := by
      rw [hfa, hfb]
      have h1' : (input.count b : Int) < (input.count a : Int) := by
        exact_mod_cast hcount
      linarith
    have h2 : ((sb.map (fun ch => ch == '1')).length : Int) -
        ((sa.map (fun ch => ch == '1')).length : Int) < 0 := by
      simp only [List.length_map]
      have h2' : (sb.length : Int) < (sa.length : Int) := by exact_mod_cast hlen
      linarith
    have h3 := mul_neg_of_pos_of_neg h1 h2
    linarith
  have hall : ∀ x ∈ sortByFreqDesc ((find_input_freqs input).map
      (fun kv => Node.new kv.1 kv.2)), x ≠ Link.none ∧
      Link.freq x = sumLeafWeights x ∧ 0 ≤ Link.freq x := by
    intro x hx
    have hx' := (sortByFreqDesc_perm _).subset hx
    obtain ⟨kv, hkv, rfl⟩ := List.mem_map.mp hx'
    refine ⟨fun h0 => Link.noConfusion h0, rfl, ?_⟩
    show (0 : Int) ≤ kv.2
    have hv := find_input_freqs_val input kv.1 kv.2
      (by rw [show (kv.1, kv.2) = kv from rfl]; exact hkv)
    rw [hv]
    exact_mod_cast Nat.zero_le _
  have hml := populate_tree_run (find_input_freqs input) hfne
  have hlwt : List.Perm (leafWeights (populate_tree (find_input_freqs input)))
      ((sortByFreqDesc ((find_input_freqs input).map
        (fun kv => Node.new kv.1 kv.2))).map Link.freq) := by
    have h1 := mergeLoop_leafWeights (sortByFreqDesc ((find_input_freqs
      input).map (fun kv => Node.new kv.1 kv.2))).length
      (sortByFreqDesc ((find_input_freqs input).map
        (fun kv => Node.new kv.1 kv.2))) (fun x hx => (hall x hx).1)
    rw [hml] at h1
    have h2 : ([populate_tree (find_input_freqs input)].map
        leafWeights).flatten =
        leafWeights (populate_tree (find_input_freqs input)) := by simp
    rw [h2] at h1
    have h3 : ((sortByFreqDesc ((find_input_freqs input).map
        (fun kv => Node.new kv.1 kv.2))).map leafWeights).flatten =
        (sortByFreqDesc ((find_input_freqs input).map
          (fun kv => Node.new kv.1 kv.2))).map Link.freq := by
      refine flatten_map_leafWeights _ ?_
      intro x hx
      obtain ⟨kv, hkv, rfl⟩ := List.mem_map.mp ((sortByFreqDesc_perm _).subset hx)
      rfl
    rw [h3] at h1
    exact h1
  have hs2perm := hs2lw.trans hlwt
  have hopt := mergeLoop_opt _ _ (sortByFreqDesc_sortedDesc _) hall _ hml s2
    hs2inv hs2perm
  have hzero : ((sortByFreqDesc ((find_input_freqs input).map
      (fun kv => Node.new kv.1 kv.2))).map cost).sum = 0 := by
    refine List.sum_eq_zero ?_
    intro z hz
    obtain ⟨x, hx, rfl⟩ := List.mem_map.mp hz
    obtain ⟨kv, hkv, rfl⟩ := List.mem_map.mp ((sortByFreqDesc_perm _).subset hx)
    rfl
  rw [hzero] at hopt
  linarith

/-- Witness for C9 at the concrete input "aab": 'a' occurs twice and 'b'
once, and indeed 'a' receives the code "0", no longer than 'b''s code "1". -/
theorem code_length_ordering_witness :
    ('a' ∈ (['a', 'a', 'b'] : List Char)) ∧
    ('b' ∈ (['a', 'a', 'b'] : List Char)) ∧
    (['a', 'a', 'b'] : List Char).count 'b' <
      (['a', 'a', 'b'] : List Char).count 'a' ∧
    generate_huffman_map (populate_tree (find_input_freqs ['a', 'a', 'b'])) =
      Option.some [('a', ['0']), ('b', ['1'])] ∧
    mapLookup 'a' [('a', ['0']), ('b', ['1'])] = Option.some ['0'] ∧
    mapLookup 'b' [('a', ['0']), ('b', ['1'])] = Option.some ['1'] ∧
    (['0'] : List Char).length ≤ (['1'] : List Char).length :=
  ⟨by decide, by decide, by decide, rfl, rfl, rfl,
    code_length_ordering ['a', 'a', 'b'] 'a' 'b' [('a', ['0']), ('b', ['1'])]
      ['0'] ['1'] (by decide) (by decide) (by decide) rfl rfl rfl⟩

theorem decode_encode_round_trip_witness :
    (['a', 'b'] : List Char) ≠ [] ∧
    (∃ a ∈ (['a', 'b'] : List Char), ∃ b ∈ (['a', 'b'] : List Char), a ≠ b) ∧
    (∃ table, generate_huffman_map (populate_tree (find_input_freqs ['a', 'b'])) =
        Option.some table ∧
      decode (populate_tree (find_input_freqs ['a', 'b']))
        (encode ['a', 'b'] table) = Option.some ['a', 'b']) :=
  ⟨by decide, ⟨'a', by decide, 'b', by decide, by decide⟩,
    decode_encode_round_trip ['a', 'b'] (by decide)
      ⟨'a', by decide, 'b', by decide, by decide⟩⟩

end Huffman
